import Mathlib

/-!
The package shardingmap: a sharded key-value container.

A shallow embedding of `shardingmap.go` and a verification of its specification.

Modelling conventions.

* Go `int` is the 64-bit signed integer of the usual targets; it is embedded as `Int`.
  The only arithmetic the program does on it is the remainder of `getShard` and the running
  total of `Len`, neither of which can leave the 64-bit range for in-range inputs.
* Go `%` is the truncated remainder (the sign follows the dividend): `Int.tmod`.
  A zero divisor raises a run-time panic.
* A Go `map[K]V` is embedded as a list of key/value entries. The position of an entry in the
  list stands for nothing observable except the order in which `range` may enumerate it; the
  operations below keep the keys distinct (`mapStore_keysNodup`, `mapDelete_keysNodup`).
* The `*Shard` pointers held in `shards` are pairwise distinct objects allocated by `New`;
  a pointer is embedded as the position of the shard in the `shards` sequence.
* A run-time panic is embedded as `Except.error`. Every panic of a key-routed operation is
  raised inside `getShard`, before the lock is taken and before anything is written.
* The read/write locks are not part of the sequential state: every operation here runs
  alone, from its first statement to its return. The lock calls an operation makes are
  recorded by a second embedding of it (`SetTraced`, `GetTraced`, `DeleteTraced`,
  `LenTraced`, `ForEachTraced`), which returns what the first one returns.
* The packages `hash/fnv` and `fmt` are Go's standard library: the hash is modelled from its
  description in the specification, the rendering of a key is a parameter (`render`).
* The visitor of `ForEach` is a function on the state its closure captures; it returns.
* Memory is unbounded: `make` never fails.
-/

namespace Shardingmap

/-! ## Go builtin map semantics -/

/-- The run-time panics of the operations. -/
inductive Panic where
  | divideByZero
  | indexOutOfRange
  deriving DecidableEq, Repr

/-- The two-result index expression `val, ok := m[key]`; the zero value of `V` is `default`. -/
def mapLookup {K V : Type} [DecidableEq K] [Inhabited V] : List (K × V) → K → V × Bool
  | [], _ => (default, false)
  | (k, v) :: rest, key => if key = k then (v, true) else mapLookup rest key

/-- The assignment `m[key] = value`: overwrite the entry of `key`, or add one. -/
def mapStore {K V : Type} [DecidableEq K] : List (K × V) → K → V → List (K × V)
  | [], key, value => [(key, value)]
  | (k, v) :: rest, key, value =>
      if key = k then (key, value) :: rest else (k, v) :: mapStore rest key value

/-- The builtin `delete(m, key)`: drop the entry of `key`; nothing happens when there is none. -/
def mapDelete {K V : Type} [DecidableEq K] (m : List (K × V)) (key : K) : List (K × V) :=
  m.filter (fun e => decide (e.1 ≠ key))

/-- The builtin `len(m)`. -/
def mapLen {K V : Type} (m : List (K × V)) : Int := (m.length : Int)

/-! ## Data model -/

/-- Shard defines the structure of each shard (the lock carries no sequential state). -/
structure Shard (K V : Type) where
  items : List (K × V)

/-- ShardingMap defines the structure of the entire sharding map. -/
structure ShardingMap (K V : Type) where
  shards : List (Shard K V)
  shardCount : Int
  shardingFunc : K → Int

/-- The source's `Option`: a function that configures a `ShardingMap` in place. -/
abbrev Opt (K V : Type) := ShardingMap K V → ShardingMap K V

/-- WithShardCount sets the number of shards. -/
def WithShardCount {K V : Type} (count : Int) : Opt K V :=
  fun sm => if count > 0 then { sm with shardCount := count } else sm

/-- WithShardingFunc sets a custom sharding function; `none` is Go's `nil`. -/
def WithShardingFunc {K V : Type} (fn : Option (K → Int)) : Opt K V :=
  fun sm =>
    match fn with
    | some f => { sm with shardingFunc := f }
    | none => sm

/-! ## The default sharding function -/

/-- Modelled from the spec: the package `hash/fnv` is Go's standard library and not part of
the source files; this is its 32-bit FNV offset basis, the "fixed offset basis" that seeds
the accumulator. -/
def offset32 : Nat := 2166136261

/-- Modelled from the spec: the package `hash/fnv` is Go's standard library and not part of
the source files; this is its 32-bit FNV prime, the "fixed prime" the accumulator is
multiplied by. -/
def prime32 : Nat := 16777619

/-- Modelled from the spec: the package `hash/fnv` is Go's standard library and not part of
the source files; this is the `Write` of the hash made by `fnv.New32a()` (`Sum32` returns the
accumulator): one byte at a time, xor the byte into the low-order bits of the accumulator,
then multiply the accumulator by the prime, with unsigned 32-bit wraparound. `Write` returns
no error. -/
def fnv32aWrite (hash : Nat) (data : List (Fin 256)) : Nat :=
  data.foldl (fun h c => ((h ^^^ c.val) * prime32) % 2 ^ 32) hash

/-- defaultShardingFunc is the default sharding function using FNV hash.
`render` is `fmt.Sprintf("%v", key)` followed by the conversion to bytes. -/
def defaultShardingFunc {K : Type} (render : K → List (Fin 256)) (key : K) : Int :=
  ((fnv32aWrite offset32 (render key) : Nat) : Int)

/-! ## Construction -/

/-- New creates a new ShardingMap with support for options. -/
def New {K V : Type} (render : K → List (Fin 256)) (opts : List (Opt K V)) : ShardingMap K V :=
  let sm : ShardingMap K V :=
    { shards := [], shardCount := 16, shardingFunc := defaultShardingFunc render }
  let sm := opts.foldl (fun sm opt => opt sm) sm
  { sm with shards := List.replicate sm.shardCount.toNat { items := [] } }

/-! ## Key-routed operations -/

/-- The function getShard returns the corresponding shard based on the key: here, its position
in `shards`. The remainder panics on a zero divisor, the indexing on a position that is
negative or not below `len(sm.shards)`. -/
def getShard {K V : Type} (sm : ShardingMap K V) (key : K) : Except Panic Nat :=
  if sm.shardCount = 0 then .error .divideByZero
  else
    let index := Int.tmod (sm.shardingFunc key) sm.shardCount
    if 0 ≤ index ∧ index.toNat < sm.shards.length then .ok index.toNat
    else .error .indexOutOfRange

/-- Set sets the key-value pair. -/
def Set {K V : Type} [DecidableEq K] (sm : ShardingMap K V) (key : K) (value : V) :
    Except Panic (ShardingMap K V) :=
  match getShard sm key with
  | .error e => .error e
  | .ok i =>
      .ok { sm with
            shards := sm.shards.modify (fun shard => { items := mapStore shard.items key value }) i }

/-- Get retrieves the value corresponding to the key. -/
def Get {K V : Type} [DecidableEq K] [Inhabited V] (sm : ShardingMap K V) (key : K) :
    Except Panic (V × Bool) :=
  match getShard sm key with
  | .error e => .error e
  | .ok i =>
      match sm.shards[i]? with
      | some shard => .ok (mapLookup shard.items key)
      | none => .error .indexOutOfRange

/-- Delete removes the key. -/
def Delete {K V : Type} [DecidableEq K] (sm : ShardingMap K V) (key : K) :
    Except Panic (ShardingMap K V) :=
  match getShard sm key with
  | .error e => .error e
  | .ok i =>
      .ok { sm with
            shards := sm.shards.modify (fun shard => { items := mapDelete shard.items key }) i }

/-! ## Aggregate operations -/

/-- Len returns the total number of elements in the ShardingMap. -/
def Len {K V : Type} (sm : ShardingMap K V) : Int :=
  sm.shards.foldl (fun total shard => total + mapLen shard.items) 0

/-- ForEach iterates over all key-value pairs. The visitor `f` acts on a state of type `σ`
(what the Go closure captures). `order` is the enumeration order that `range` picks for a
map, which Go leaves unspecified: any rearrangement of the entries. -/
def ForEach {K V σ : Type} (order : List (K × V) → List (K × V)) (sm : ShardingMap K V)
    (f : K → V → σ → σ) (s : σ) : σ :=
  sm.shards.foldl
    (fun s shard => (order shard.items).foldl (fun s e => f e.1 e.2 s) s) s

/-! ## Sequential histories -/

/-- The options a caller can build: the source exports no other way to make an `Option`. -/
inductive OptSpec (K : Type) where
  | shardCount (count : Int)
  | shardingFunc (fn : Option (K → Int))

/-- The `Option` value that the described call returns. -/
def OptSpec.toOpt {K V : Type} : OptSpec K → Opt K V
  | .shardCount count => WithShardCount count
  | .shardingFunc fn => WithShardingFunc fn

/-- A mutating call on the container. -/
inductive Op (K V : Type) where
  | set (key : K) (value : V)
  | delete (key : K)

/-- The key a call is about. -/
def Op.key {K V : Type} : Op K V → K
  | .set key _ => key
  | .delete key => key

/-- The state of the container once a call is over: the new state when the call returned, the
old one when it panicked (the panic is raised before anything is written). -/
def settle {K V : Type} (sm : ShardingMap K V) : Except Panic (ShardingMap K V) → ShardingMap K V
  | .ok sm' => sm'
  | .error _ => sm

/-- One call of a history. -/
def Op.apply {K V : Type} [DecidableEq K] (sm : ShardingMap K V) : Op K V → ShardingMap K V
  | .set key value => settle sm (Set sm key value)
  | .delete key => settle sm (Delete sm key)

/-- A finite sequential history of `Set` and `Delete` calls, run from `sm`. -/
def runOps {K V : Type} [DecidableEq K] (sm : ShardingMap K V) (ops : List (Op K V)) :
    ShardingMap K V :=
  ops.foldl Op.apply sm

/-- The calls that `ForEach` makes to its visitor, in the order it makes them: the log kept by
a visitor that records its arguments. -/
def visits {K V : Type} (order : List (K × V) → List (K × V)) (sm : ShardingMap K V) :
    List (K × V) :=
  ForEach order sm (fun k v log => log ++ [(k, v)]) []

/-- The value stored under a key, for keys that are present (the zero value otherwise). -/
def storedValue {K V : Type} [DecidableEq K] [Inhabited V] (sm : ShardingMap K V) (key : K) : V :=
  match Get sm key with
  | .ok (v, _) => v
  | .error _ => default

/-! ## The construction rules in the words of the specification -/

/-- The shard count of the specification: the count of the last shard-count option whose
argument is positive, or 16 when there is none. -/
def specShardCount {K : Type} (opts : List (OptSpec K)) : Int :=
  ((opts.filterMap (fun o =>
      match o with
      | .shardCount count => if count > 0 then some count else none
      | .shardingFunc _ => none)).getLast?).getD 16

/-- The routing function of the specification: the function of the last routing-function
option whose argument is not nil, or the default hash-based function when there is none. -/
def specShardingFunc {K : Type} (render : K → List (Fin 256)) (opts : List (OptSpec K)) :
    K → Int :=
  ((opts.filterMap (fun o =>
      match o with
      | .shardCount _ => none
      | .shardingFunc fn => fn)).getLast?).getD (defaultShardingFunc render)

/-! ## Invariants -/

/-- The keys of a map are pairwise distinct. -/
def KeysNodup {K V : Type} (m : List (K × V)) : Prop := (m.map Prod.fst).Nodup

/-- The container is well formed: a positive shard count, as many shards as the count says,
no key twice in a shard, and every stored key in the shard that `getShard` selects for it. -/
structure Inv {K V : Type} (sm : ShardingMap K V) : Prop where
  count_pos : 0 < sm.shardCount
  length_eq : (sm.shards.length : Int) = sm.shardCount
  nodup : ∀ (i : Nat) (shard : Shard K V), sm.shards[i]? = some shard → KeysNodup shard.items
  routed : ∀ (i : Nat) (shard : Shard K V), sm.shards[i]? = some shard →
    ∀ e ∈ shard.items, getShard sm e.1 = .ok i

/-- The container in which the map of shard `i` has been replaced by `g` of it. -/
def updateShard {K V : Type} (sm : ShardingMap K V) (i : Nat) (g : List (K × V) → List (K × V)) :
    ShardingMap K V :=
  { sm with shards := sm.shards.modify (fun shard => { items := g shard.items }) i }

/-- All the entries of the container, shard after shard in storage order. -/
def entries {K V : Type} (sm : ShardingMap K V) : List (K × V) :=
  sm.shards.flatMap (fun shard => shard.items)

/-- The containers a program can hold: built by `New` from options, then used through any
finite sequential history of `Set` and `Delete` calls. -/
def Reachable {K V : Type} [DecidableEq K] (render : K → List (Fin 256))
    (sm : ShardingMap K V) : Prop :=
  ∃ (opts : List (OptSpec K)) (ops : List (Op K V)),
    sm = runOps (New render (opts.map OptSpec.toOpt)) ops

/-- The value that a history leaves under a key: the value of the last `Set` of the key when
no `Delete` of the key follows it, nothing otherwise. -/
def lastValue {K V : Type} [DecidableEq K] (ops : List (Op K V)) (key : K) : Option V :=
  ops.foldl
    (fun acc op =>
      if op.key = key then
        match op with
        | .set _ value => some value
        | .delete _ => none
      else acc)
    none

/-- A sample container: four shards, keys routed by their own value; keys 1 and 5 share
shard 1, key 2 lives in shard 2. -/
def sampleMap : ShardingMap Nat Int :=
  runOps
    (New (fun _ => [])
      ([OptSpec.shardCount 4, OptSpec.shardingFunc (some (fun k : Nat => (k : Int)))].map
        OptSpec.toOpt))
    [Op.set 1 10, Op.set 5 50, Op.set 2 20]

/-- A container whose routing function returns -1 for every key (16 shards). -/
def negativeMap : ShardingMap Nat Int :=
  New (fun _ => []) ([OptSpec.shardingFunc (some (fun _ : Nat => (-1 : Int)))].map OptSpec.toOpt)

/-! ## Calls of the public interface and their results -/

/-- A call of the public interface. The visitor of `ForEach` acts on a state of type `σ`,
starting from `s`. -/
inductive Call (K V σ : Type) where
  | set (key : K) (value : V)
  | get (key : K)
  | delete (key : K)
  | len
  | forEach (f : K → V → σ → σ) (s : σ)

/-- Whether the call is a `ForEach`. -/
def Call.isForEach {K V σ : Type} : Call K V σ → Bool
  | .forEach _ _ => true
  | _ => false

/-- What a call hands back: nothing (`Set`, `Delete`), a value and a flag (`Get`), a count
(`Len`), the state the visitor ends in (`ForEach`), or a panic. -/
inductive Ret (V σ : Type) where
  | done
  | value (v : V) (ok : Bool)
  | count (n : Int)
  | visited (s : σ)
  | panicked (p : Panic)

/-- One call on the container: the container afterwards and what the caller gets. `Get`,
`Len` and `ForEach` write to no field of the container and to no shard map. -/
def Call.exec {K V σ : Type} [DecidableEq K] [Inhabited V]
    (order : List (K × V) → List (K × V)) (sm : ShardingMap K V) :
    Call K V σ → ShardingMap K V × Ret V σ
  | .set key value =>
      match Set sm key value with
      | .ok sm' => (sm', .done)
      | .error p => (sm, .panicked p)
  | .get key =>
      match Get sm key with
      | .ok r => (sm, .value r.1 r.2)
      | .error p => (sm, .panicked p)
  | .delete key =>
      match Delete sm key with
      | .ok sm' => (sm', .done)
      | .error p => (sm, .panicked p)
  | .len => (sm, .count (Len sm))
  | .forEach f s => (sm, .visited (ForEach order sm f s))

/-- A finite sequential history of calls: the container at the end and the results in order. -/
def runCalls {K V σ : Type} [DecidableEq K] [Inhabited V]
    (order : List (K × V) → List (K × V)) (sm : ShardingMap K V) :
    List (Call K V σ) → ShardingMap K V × List (Ret V σ)
  | [] => (sm, [])
  | call :: rest =>
      ((runCalls order (call.exec order sm).1 rest).1,
        (call.exec order sm).2 :: (runCalls order (call.exec order sm).1 rest).2)

/-- The reference of the refinement: the same call on a single unsharded key-value map. -/
def plainExec {K V σ : Type} [DecidableEq K] [Inhabited V]
    (order : List (K × V) → List (K × V)) (m : List (K × V)) :
    Call K V σ → List (K × V) × Ret V σ
  | .set key value => (mapStore m key value, .done)
  | .get key => (m, .value (mapLookup m key).1 (mapLookup m key).2)
  | .delete key => (mapDelete m key, .done)
  | .len => (m, .count (mapLen m))
  | .forEach f s => (m, .visited ((order m).foldl (fun s e => f e.1 e.2 s) s))

/-- A history of calls on a single unsharded map. -/
def runPlain {K V σ : Type} [DecidableEq K] [Inhabited V]
    (order : List (K × V) → List (K × V)) (m : List (K × V)) :
    List (Call K V σ) → List (K × V) × List (Ret V σ)
  | [] => (m, [])
  | call :: rest =>
      ((runPlain order (plainExec order m call).1 rest).1,
        (plainExec order m call).2 :: (runPlain order (plainExec order m call).1 rest).2)

/-- The simulation between a sharded container and a single unsharded map: the container is
well formed, its routing values are non-negative, the map has no key twice, and `Get` on the
container returns what a lookup in the map returns. -/
structure Sim {K V : Type} [DecidableEq K] [Inhabited V] (sm : ShardingMap K V)
    (m : List (K × V)) : Prop where
  inv : Inv sm
  nonneg : ∀ k, 0 ≤ sm.shardingFunc k
  nodup : KeysNodup m
  get : ∀ k, Get sm k = .ok (mapLookup m k)

/-! ## The default hash in the words of the specification -/

/-- The accumulation of the specification from an accumulator `h`: for each byte `b` in
order, `h` becomes `((h xor b) * 16777619) mod 2^32`. -/
def fnv1aFrom : Nat → List (Fin 256) → Nat
  | h, [] => h
  | h, b :: rest => fnv1aFrom (((h ^^^ b.val) * 16777619) % 2 ^ 32) rest

/-- The 32-bit FNV-1a value of a byte sequence: the accumulation started from the offset
basis 2166136261. -/
def fnv1a32 (bytes : List (Fin 256)) : Nat := fnv1aFrom 2166136261 bytes

/-- Go's conversion of an unsigned value to the 64-bit `int`: the low 64 bits, read as a
two's complement number. -/
def toInt64 (n : Nat) : Int :=
  if n % 2 ^ 64 < 2 ^ 63 then ((n % 2 ^ 64 : Nat) : Int) else ((n % 2 ^ 64 : Nat) : Int) - 2 ^ 64

/-- The routing function of the test scenario: the length of the key (Go's `len` of a string,
its number of bytes). -/
def keyLength (key : String) : Int := (key.utf8ByteSize : Int)

/-- The container of the test scenario: shard count 4, keys routed by their length, after
`Set("short", 1)` and `Set("longerkey", 2)`. -/
def lengthMap : ShardingMap String Int :=
  runOps
    (New (fun _ => [])
      ([OptSpec.shardCount 4, OptSpec.shardingFunc (some keyLength)].map OptSpec.toOpt))
    [Op.set "short" 1, Op.set "longerkey" 2]

/-- A container with four shards whose routing function is the key minus one: -1 for key 0,
0 for key 1. -/
def shiftedMap : ShardingMap Nat Int :=
  New (fun _ => [])
    ([OptSpec.shardCount 4, OptSpec.shardingFunc (some (fun k : Nat => (k : Int) - 1))].map
      OptSpec.toOpt)

/-! ## The lock calls of the operations -/

/-- A call on the read/write lock of the shard at a position of `shards`: `Lock`, `Unlock`,
`RLock`, `RUnlock`. -/
inductive LockEvent where
  | lock (shard : Nat)
  | unlock (shard : Nat)
  | rLock (shard : Nat)
  | rUnlock (shard : Nat)
  deriving DecidableEq, Repr

/-- Set, with the lock calls it makes in order. The deferred `Unlock` runs at the return; a
panic of `getShard` comes before the `Lock`. -/
def SetTraced {K V : Type} [DecidableEq K] (sm : ShardingMap K V) (key : K) (value : V) :
    List LockEvent × Except Panic (ShardingMap K V) :=
  match getShard sm key with
  | .error e => ([], .error e)
  | .ok i =>
      ([.lock i, .unlock i],
        .ok { sm with
              shards :=
                sm.shards.modify (fun shard => { items := mapStore shard.items key value }) i })

/-- Get, with the lock calls it makes in order. -/
def GetTraced {K V : Type} [DecidableEq K] [Inhabited V] (sm : ShardingMap K V) (key : K) :
    List LockEvent × Except Panic (V × Bool) :=
  match getShard sm key with
  | .error e => ([], .error e)
  | .ok i =>
      match sm.shards[i]? with
      | some shard => ([.rLock i, .rUnlock i], .ok (mapLookup shard.items key))
      | none => ([], .error .indexOutOfRange)

/-- Delete, with the lock calls it makes in order. -/
def DeleteTraced {K V : Type} [DecidableEq K] (sm : ShardingMap K V) (key : K) :
    List LockEvent × Except Panic (ShardingMap K V) :=
  match getShard sm key with
  | .error e => ([], .error e)
  | .ok i =>
      ([.lock i, .unlock i],
        .ok { sm with
              shards := sm.shards.modify (fun shard => { items := mapDelete shard.items key }) i })

/-- The loop of `Len` from position `i` on: the lock calls so far and the running total. -/
def lenLoop {K V : Type} : Nat → List (Shard K V) → List LockEvent × Int → List LockEvent × Int
  | _, [], acc => acc
  | i, shard :: rest, acc =>
      lenLoop (i + 1) rest (acc.1 ++ [.rLock i, .rUnlock i], acc.2 + mapLen shard.items)

/-- Len, with the lock calls it makes in order. -/
def LenTraced {K V : Type} (sm : ShardingMap K V) : List LockEvent × Int :=
  lenLoop 0 sm.shards ([], 0)

/-- The loop of `ForEach` from position `i` on: the lock calls so far and the state of the
visitor. The visitor runs between the `RLock` and the `RUnlock` of the shard. -/
def forEachLoop {K V σ : Type} (order : List (K × V) → List (K × V)) (f : K → V → σ → σ) :
    Nat → List (Shard K V) → List LockEvent × σ → List LockEvent × σ
  | _, [], acc => acc
  | i, shard :: rest, acc =>
      forEachLoop order f (i + 1) rest
        (acc.1 ++ [.rLock i, .rUnlock i], (order shard.items).foldl (fun s e => f e.1 e.2 s) acc.2)

/-- ForEach, with the lock calls it makes in order. -/
def ForEachTraced {K V σ : Type} (order : List (K × V) → List (K × V)) (sm : ShardingMap K V)
    (f : K → V → σ → σ) (s : σ) : List LockEvent × σ :=
  forEachLoop order f 0 sm.shards ([], s)

/-- The shard locks held once one more lock call is made: an acquisition adds the shard, a
release takes it off. -/
def lockStep (locks : List Nat) : LockEvent → List Nat
  | .lock i => i :: locks
  | .rLock i => i :: locks
  | .unlock i => locks.erase i
  | .rUnlock i => locks.erase i

/-- The shard locks held after a sequence of lock calls, the latest first. -/
def held (events : List LockEvent) : List Nat :=
  events.foldl lockStep []

/-- The lock discipline of one operation: at every moment of the sequence at most one shard
lock is held, and at the end none is. -/
def OneAtATime (events : List LockEvent) : Prop :=
  (∀ n, (held (events.take n)).length ≤ 1) ∧ held events = []

/-- The lock calls of a pass over the shards 0, 1, ..., n-1 in storage order: the shared lock
of each is taken and released before the next. -/
def sharedPass (n : Nat) : List LockEvent :=
  (List.range n).flatMap (fun i => [.rLock i, .rUnlock i])

theorem sampleMap_reachable : Reachable (fun _ => []) sampleMap :=
  ⟨[OptSpec.shardCount 4, OptSpec.shardingFunc (some (fun k : Nat => (k : Int)))],
    [Op.set 1 10, Op.set 5 50, Op.set 2 20], rfl⟩

theorem negativeMap_reachable : Reachable (fun _ => []) negativeMap :=
  ⟨[OptSpec.shardingFunc (some (fun _ : Nat => (-1 : Int)))], [], rfl⟩

/-! ## Lemmas on the builtin map -/

section MapLemmas

variable {K V : Type} [DecidableEq K]

theorem mapLookup_mapStore_self [Inhabited V] (m : List (K × V)) (k : K) (v : V) :
    mapLookup (mapStore m k v) k = (v, true) := by
  induction m with
  | nil => simp [mapStore, mapLookup]
  | cons e rest ih =>
    obtain ⟨k', v'⟩ := e
    by_cases h : k = k'
    · simp [mapStore, mapLookup, h]
    · simp [mapStore, mapLookup, h, ih]

theorem mapLookup_mapStore_ne [Inhabited V] (m : List (K × V)) {k key : K} (v : V)
    (h : key ≠ k) : mapLookup (mapStore m k v) key = mapLookup m key := by
  induction m with
  | nil => simp [mapStore, mapLookup, h]
  | cons e rest ih =>
    obtain ⟨k', v'⟩ := e
    by_cases hk : k = k'
    · subst hk
      simp [mapStore, mapLookup, h]
    · by_cases hk' : key = k'
      · simp [mapStore, mapLookup, hk, hk']
      · simp [mapStore, mapLookup, hk, hk', ih]

theorem mapLookup_mapDelete_self [Inhabited V] (m : List (K × V)) (k : K) :
    mapLookup (mapDelete m k) k = (default, false) := by
  induction m with
  | nil => simp [mapDelete, mapLookup]
  | cons e rest ih =>
    obtain ⟨k', v'⟩ := e
    by_cases h : k' = k
    · simpa [mapDelete, List.filter_cons, h] using ih
    · have h' : ¬ k = k' := fun hh => h hh.symm
      simpa [mapDelete, List.filter_cons, h, mapLookup, h'] using ih

theorem mapLookup_mapDelete_ne [Inhabited V] (m : List (K × V)) {k key : K} (h : key ≠ k) :
    mapLookup (mapDelete m k) key = mapLookup m key := by
  induction m with
  | nil => simp [mapDelete, mapLookup]
  | cons e rest ih =>
    obtain ⟨k', v'⟩ := e
    by_cases hk : k' = k
    · subst hk
      simpa [mapDelete, List.filter_cons, mapLookup, h] using ih
    · by_cases hk' : key = k'
      · simp [mapDelete, List.filter_cons, hk, mapLookup, hk']
      · simpa [mapDelete, List.filter_cons, hk, mapLookup, hk'] using ih

theorem length_mapStore_of_mem (m : List (K × V)) (k : K) (v : V)
    (h : k ∈ m.map Prod.fst) : (mapStore m k v).length = m.length := by
  induction m with
  | nil => simp at h
  | cons e rest ih =>
    obtain ⟨k', v'⟩ := e
    by_cases hk : k = k'
    · simp [mapStore, hk]
    · have : k ∈ rest.map Prod.fst := by
        simpa [hk] using h
      simp [mapStore, hk, ih this]

theorem length_mapStore_of_not_mem (m : List (K × V)) (k : K) (v : V)
    (h : k ∉ m.map Prod.fst) : (mapStore m k v).length = m.length + 1 := by
  induction m with
  | nil => simp [mapStore]
  | cons e rest ih =>
    obtain ⟨k', v'⟩ := e
    have hk : ¬ k = k' := by
      intro hh; apply h; simp [hh]
    have : k ∉ rest.map Prod.fst := by
      intro hh; apply h; simp only [List.map_cons, List.mem_cons]; exact Or.inr hh
    simp [mapStore, hk, ih this]

theorem keys_mapStore (m : List (K × V)) (k : K) (v : V) (key : K) :
    key ∈ (mapStore m k v).map Prod.fst ↔ key = k ∨ key ∈ m.map Prod.fst := by
  induction m with
  | nil => simp [mapStore]
  | cons e rest ih =>
    obtain ⟨k', v'⟩ := e
    by_cases hk : k = k'
    · subst hk
      simp [mapStore]
    · simp only [mapStore, hk, if_false, List.map_cons, List.mem_cons, ih]
      tauto

theorem mapStore_keysNodup (m : List (K × V)) (k : K) (v : V) (h : KeysNodup m) :
    KeysNodup (mapStore m k v) := by
  unfold KeysNodup at *
  induction m with
  | nil => simp [mapStore]
  | cons e rest ih =>
    obtain ⟨k', v'⟩ := e
    simp only [List.map_cons, List.nodup_cons] at h
    by_cases hk : k = k'
    · subst hk
      simpa [mapStore] using h
    · simp only [mapStore, hk, if_false, List.map_cons, List.nodup_cons]
      refine ⟨?_, ih h.2⟩
      intro hmem
      rcases (keys_mapStore rest k v k').1 hmem with h1 | h1
      · exact hk h1.symm
      · exact h.1 h1

theorem mem_mapStore (m : List (K × V)) (k : K) (v : V) (e : K × V)
    (h : e ∈ mapStore m k v) : e = (k, v) ∨ e ∈ m := by
  induction m with
  | nil => simpa [mapStore] using h
  | cons e' rest ih =>
    obtain ⟨k', v'⟩ := e'
    by_cases hk : k = k'
    · simp only [mapStore, hk, if_true, List.mem_cons] at h
      rcases h with h | h
      · left; rw [h, hk]
      · right; exact List.mem_cons_of_mem _ h
    · simp only [mapStore, hk, if_false, List.mem_cons] at h
      rcases h with h | h
      · right; rw [h]; exact List.mem_cons_self _ _
      · rcases ih h with h1 | h1
        · exact Or.inl h1
        · exact Or.inr (List.mem_cons_of_mem _ h1)

theorem mapDelete_keysNodup (m : List (K × V)) (k : K) (h : KeysNodup m) :
    KeysNodup (mapDelete m k) := by
  unfold KeysNodup at *
  exact h.sublist ((List.filter_sublist m).map Prod.fst)

theorem mem_mapDelete (m : List (K × V)) (k : K) (e : K × V) :
    e ∈ mapDelete m k ↔ e ∈ m ∧ e.1 ≠ k := by
  simp [mapDelete, List.mem_filter]

theorem mapLookup_found_iff [Inhabited V] (m : List (K × V)) (k : K) :
    (mapLookup m k).2 = true ↔ k ∈ m.map Prod.fst := by
  induction m with
  | nil => simp [mapLookup]
  | cons e rest ih =>
    obtain ⟨k', v'⟩ := e
    by_cases hk : k = k'
    · simp [mapLookup, hk]
    · simp [mapLookup, hk, ih]

theorem mapLookup_absent [Inhabited V] (m : List (K × V)) (k : K)
    (h : (mapLookup m k).2 = false) : mapLookup m k = (default, false) := by
  induction m with
  | nil => simp [mapLookup]
  | cons e rest ih =>
    obtain ⟨k', v'⟩ := e
    by_cases hk : k = k'
    · simp [mapLookup, hk] at h
    · simp only [mapLookup, hk, if_false] at h ⊢
      exact ih h

theorem mapDelete_of_absent [Inhabited V] (m : List (K × V)) (k : K)
    (h : (mapLookup m k).2 = false) : mapDelete m k = m := by
  have hnot : k ∉ m.map Prod.fst := by
    intro hmem
    have := (mapLookup_found_iff m k).2 hmem
    simp [h] at this
  unfold mapDelete
  rw [List.filter_eq_self]
  intro e he
  have : e.1 ≠ k := by
    intro hh
    exact hnot (hh ▸ List.mem_map_of_mem Prod.fst he)
  simpa using this

theorem mapLookup_eq_iff_mem [Inhabited V] (m : List (K × V)) (h : KeysNodup m) (k : K) (v : V) :
    mapLookup m k = (v, true) ↔ (k, v) ∈ m := by
  unfold KeysNodup at h
  induction m with
  | nil => simp [mapLookup]
  | cons e rest ih =>
    obtain ⟨k', v'⟩ := e
    simp only [List.map_cons, List.nodup_cons] at h
    by_cases hk : k = k'
    · subst hk
      simp only [mapLookup, if_true, List.mem_cons, Prod.mk.injEq, true_and, and_true]
      constructor
      · intro hv; exact Or.inl hv.symm
      · rintro (hv | hmem)
        · exact hv.symm
        · exact absurd (List.mem_map_of_mem Prod.fst hmem) h.1
    · simp only [mapLookup, hk, if_false, List.mem_cons, Prod.mk.injEq, false_and, false_or]
      exact ih h.2

end MapLemmas

/-! ## Lemmas on routing -/

section Routing

variable {K V : Type}

theorem getShard_lt {sm : ShardingMap K V} {key : K} {i : Nat}
    (h : getShard sm key = .ok i) : i < sm.shards.length := by
  unfold getShard at h
  split at h
  · cases h
  · simp only at h
    split at h
    · rename_i hc
      cases h
      exact hc.2
    · cases h

theorem getShard_congr {sm sm' : ShardingMap K V} (hc : sm'.shardCount = sm.shardCount)
    (hf : sm'.shardingFunc = sm.shardingFunc) (hl : sm'.shards.length = sm.shards.length)
    (key : K) : getShard sm' key = getShard sm key := by
  unfold getShard
  rw [hc, hf, hl]

theorem getShard_of_nonneg {sm : ShardingMap K V} (hpos : 0 < sm.shardCount)
    (hlen : (sm.shards.length : Int) = sm.shardCount) {key : K}
    (h : 0 ≤ Int.tmod (sm.shardingFunc key) sm.shardCount) :
    getShard sm key = .ok (Int.tmod (sm.shardingFunc key) sm.shardCount).toNat := by
  have hlt : Int.tmod (sm.shardingFunc key) sm.shardCount < sm.shardCount :=
    Int.tmod_lt_of_pos _ hpos
  have hne : sm.shardCount ≠ 0 := by omega
  have hb : (Int.tmod (sm.shardingFunc key) sm.shardCount).toNat < sm.shards.length := by
    omega
  unfold getShard
  simp [hne, h, hb]

theorem getShard_index {sm : ShardingMap K V} {key : K} {i : Nat}
    (h : getShard sm key = .ok i) :
    (i : Int) = Int.tmod (sm.shardingFunc key) sm.shardCount := by
  unfold getShard at h
  split at h
  · cases h
  · simp only at h
    split at h
    · rename_i hc
      cases h
      omega
    · cases h

end Routing

/-! ## Lemmas on the key-routed operations -/

section Operations

set_option linter.unusedSectionVars false

variable {K V : Type} [DecidableEq K]

theorem Set_eq (sm : ShardingMap K V) (key : K) (value : V) :
    Set sm key value =
      match getShard sm key with
      | .error e => .error e
      | .ok i => .ok (updateShard sm i (fun m => mapStore m key value)) := rfl

theorem Delete_eq (sm : ShardingMap K V) (key : K) :
    Delete sm key =
      match getShard sm key with
      | .error e => .error e
      | .ok i => .ok (updateShard sm i (fun m => mapDelete m key)) := rfl

theorem getShard_updateShard (sm : ShardingMap K V) (i : Nat)
    (g : List (K × V) → List (K × V)) (key : K) :
    getShard (updateShard sm i g) key = getShard sm key :=
  @getShard_congr K V sm (updateShard sm i g) rfl rfl (by simp [updateShard]) key

theorem shards_updateShard (sm : ShardingMap K V) (i : Nat)
    (g : List (K × V) → List (K × V)) (j : Nat) :
    (updateShard sm i g).shards[j]? =
      (sm.shards[j]?).map (fun shard => if i = j then { items := g shard.items } else shard) := by
  simp only [updateShard, List.getElem?_modify]
  rfl

theorem Get_updateShard_hit [Inhabited V] (sm : ShardingMap K V) (i : Nat)
    (g : List (K × V) → List (K × V)) (key : K) (r : V × Bool)
    (hi : getShard sm key = .ok i) (hg : ∀ m, mapLookup (g m) key = r) :
    Get (updateShard sm i g) key = .ok r := by
  have hlt := getShard_lt hi
  unfold Get
  rw [getShard_updateShard, hi]
  simp only [shards_updateShard]
  rw [List.getElem?_eq_getElem hlt]
  simp [hg]

theorem Get_updateShard_frame [Inhabited V] (sm : ShardingMap K V) (i : Nat)
    (g : List (K × V) → List (K × V)) (key : K)
    (hg : ∀ m, mapLookup (g m) key = mapLookup m key) :
    Get (updateShard sm i g) key = Get sm key := by
  unfold Get
  rw [getShard_updateShard]
  cases hk : getShard sm key with
  | error e => rfl
  | ok j =>
    simp only [shards_updateShard]
    cases hs : sm.shards[j]? with
    | none => rfl
    | some shard =>
      by_cases hij : i = j
      · simp [hij, hg]
      · simp [hij]

theorem Get_Set_self [Inhabited V] {sm sm' : ShardingMap K V} {key : K} {value : V}
    (h : Set sm key value = .ok sm') : Get sm' key = .ok (value, true) := by
  rw [Set_eq] at h
  cases hk : getShard sm key with
  | error e => rw [hk] at h; cases h
  | ok i =>
    rw [hk] at h
    cases h
    exact Get_updateShard_hit sm i _ key _ hk (fun m => mapLookup_mapStore_self m key value)

theorem Get_Delete_self [Inhabited V] {sm sm' : ShardingMap K V} {key : K}
    (h : Delete sm key = .ok sm') : Get sm' key = .ok (default, false) := by
  rw [Delete_eq] at h
  cases hk : getShard sm key with
  | error e => rw [hk] at h; cases h
  | ok i =>
    rw [hk] at h
    cases h
    exact Get_updateShard_hit sm i _ key _ hk (fun m => mapLookup_mapDelete_self m key)

theorem Get_settle_Set_ne [Inhabited V] (sm : ShardingMap K V) {key k2 : K} (v2 : V)
    (h : key ≠ k2) : Get (settle sm (Set sm k2 v2)) key = Get sm key := by
  rw [Set_eq]
  cases getShard sm k2 with
  | error e => rfl
  | ok i =>
    exact Get_updateShard_frame sm i _ key (fun m => mapLookup_mapStore_ne m v2 h)

theorem Get_settle_Delete_ne [Inhabited V] (sm : ShardingMap K V) {key k2 : K}
    (h : key ≠ k2) : Get (settle sm (Delete sm k2)) key = Get sm key := by
  rw [Delete_eq]
  cases getShard sm k2 with
  | error e => rfl
  | ok i =>
    exact Get_updateShard_frame sm i _ key (fun m => mapLookup_mapDelete_ne m h)

theorem Get_apply_ne [Inhabited V] (sm : ShardingMap K V) (op : Op K V) {key : K}
    (h : op.key ≠ key) : Get (op.apply sm) key = Get sm key := by
  cases op with
  | set k2 v2 => exact Get_settle_Set_ne sm v2 (fun hh => h hh.symm)
  | delete k2 => exact Get_settle_Delete_ne sm (fun hh => h hh.symm)

theorem Get_runOps_ne [Inhabited V] (sm : ShardingMap K V) (ops : List (Op K V)) {key : K}
    (h : ∀ op ∈ ops, op.key ≠ key) : Get (runOps sm ops) key = Get sm key := by
  induction ops generalizing sm with
  | nil => rfl
  | cons op rest ih =>
    have h1 : op.key ≠ key := h op (List.mem_cons_self _ _)
    have h2 : ∀ o ∈ rest, o.key ≠ key := fun o ho => h o (List.mem_cons_of_mem _ ho)
    show Get (runOps (op.apply sm) rest) key = Get sm key
    rw [ih (op.apply sm) h2, Get_apply_ne sm op h1]

end Operations

/-! ## The invariant holds in every reachable state -/

section Invariant

set_option linter.unusedSectionVars false

variable {K V : Type} [DecidableEq K]

theorem configure_count_pos (opts : List (OptSpec K)) (sm : ShardingMap K V)
    (h : 0 < sm.shardCount) :
    0 < ((opts.map OptSpec.toOpt).foldl (fun sm opt => opt sm) sm).shardCount := by
  induction opts generalizing sm with
  | nil => simpa using h
  | cons o rest ih =>
    simp only [List.map_cons, List.foldl_cons]
    apply ih
    cases o with
    | shardCount count =>
      simp only [OptSpec.toOpt, WithShardCount]
      split
      · assumption
      · exact h
    | shardingFunc fn =>
      cases fn with
      | none => exact h
      | some f => exact h

theorem New_count_pos (render : K → List (Fin 256)) (opts : List (OptSpec K)) :
    0 < (New render (opts.map (OptSpec.toOpt : OptSpec K → Opt K V))).shardCount :=
  configure_count_pos opts _ (show (0 : Int) < 16 by decide)

theorem New_shards (render : K → List (Fin 256)) (opts : List (Opt K V)) :
    (New render opts).shards =
      List.replicate (New render opts).shardCount.toNat { items := [] } := rfl

theorem New_getElem? (render : K → List (Fin 256)) (opts : List (Opt K V)) (i : Nat)
    (shard : Shard K V) (h : (New render opts).shards[i]? = some shard) :
    shard.items = [] := by
  rw [New_shards, List.getElem?_replicate] at h
  split at h
  · cases h; rfl
  · cases h

theorem Inv_New (render : K → List (Fin 256)) (opts : List (OptSpec K)) :
    Inv (New render (opts.map (OptSpec.toOpt : OptSpec K → Opt K V))) := by
  have hpos := @New_count_pos K V _ render opts
  refine ⟨hpos, ?_, ?_, ?_⟩
  · rw [New_shards, List.length_replicate]
    omega
  · intro i shard h
    simp [KeysNodup, New_getElem? render _ i shard h]
  · intro i shard h e he
    rw [New_getElem? render _ i shard h] at he
    simp at he

theorem Inv_updateShard {sm : ShardingMap K V} (hinv : Inv sm) (i : Nat)
    (g : List (K × V) → List (K × V)) (hnodup : ∀ m, KeysNodup m → KeysNodup (g m))
    (hmem : ∀ m e, e ∈ g m → e ∈ m ∨ getShard sm e.1 = .ok i) :
    Inv (updateShard sm i g) := by
  refine ⟨hinv.count_pos, ?_, ?_, ?_⟩
  · have := hinv.length_eq
    simpa [updateShard] using this
  · intro j shard h
    rw [shards_updateShard] at h
    cases hs : sm.shards[j]? with
    | none => rw [hs] at h; cases h
    | some old =>
      rw [hs] at h
      simp only [Option.map_some', Option.some.injEq] at h
      subst h
      by_cases hij : i = j
      · simpa [hij] using hnodup _ (hinv.nodup j old hs)
      · simpa [hij] using hinv.nodup j old hs
  · intro j shard h e he
    rw [getShard_updateShard]
    rw [shards_updateShard] at h
    cases hs : sm.shards[j]? with
    | none => rw [hs] at h; cases h
    | some old =>
      rw [hs] at h
      simp only [Option.map_some', Option.some.injEq] at h
      subst h
      by_cases hij : i = j
      · simp only [hij, if_true] at he
        rcases hmem _ _ he with h1 | h1
        · exact hinv.routed j old hs e h1
        · rw [h1, hij]
      · simp only [hij, if_false] at he
        exact hinv.routed j old hs e he

theorem Inv_apply {sm : ShardingMap K V} (hinv : Inv sm) (op : Op K V) : Inv (op.apply sm) := by
  cases op with
  | set key value =>
    show Inv (settle sm (Set sm key value))
    rw [Set_eq]
    cases hk : getShard sm key with
    | error e => exact hinv
    | ok i =>
      refine Inv_updateShard hinv i _ (fun m hm => mapStore_keysNodup m key value hm) ?_
      intro m e he
      rcases mem_mapStore m key value e he with h1 | h1
      · right; rw [h1]; exact hk
      · left; exact h1
  | delete key =>
    show Inv (settle sm (Delete sm key))
    rw [Delete_eq]
    cases hk : getShard sm key with
    | error e => exact hinv
    | ok i =>
      refine Inv_updateShard hinv i _ (fun m hm => mapDelete_keysNodup m key hm) ?_
      intro m e he
      exact Or.inl ((mem_mapDelete m key e).1 he).1

theorem Inv_runOps {sm : ShardingMap K V} (hinv : Inv sm) (ops : List (Op K V)) :
    Inv (runOps sm ops) := by
  induction ops generalizing sm with
  | nil => exact hinv
  | cons op rest ih => exact ih (Inv_apply hinv op)

theorem Inv_reachable (render : K → List (Fin 256)) (opts : List (OptSpec K))
    (ops : List (Op K V)) :
    Inv (runOps (New render (opts.map OptSpec.toOpt)) ops) :=
  Inv_runOps (Inv_New render opts) ops

theorem getShard_of_Inv {sm : ShardingMap K V} (hinv : Inv sm) {key : K}
    (h : 0 ≤ Int.tmod (sm.shardingFunc key) sm.shardCount) :
    getShard sm key = .ok (Int.tmod (sm.shardingFunc key) sm.shardCount).toNat :=
  getShard_of_nonneg hinv.count_pos hinv.length_eq h

end Invariant

/-! ## Lemmas on the aggregate operations -/

section Aggregate

set_option linter.unusedSectionVars false

variable {K V : Type} [DecidableEq K]

theorem foldl_mapLen (l : List (Shard K V)) (a : Int) :
    l.foldl (fun total shard => total + mapLen shard.items) a =
      a + ((l.flatMap (fun shard => shard.items)).length : Int) := by
  induction l generalizing a with
  | nil => simp
  | cons shard rest ih =>
    simp only [List.foldl_cons, List.flatMap_cons, List.length_append]
    rw [ih]
    simp only [mapLen]
    push_cast
    ring

theorem Len_eq_length (sm : ShardingMap K V) : Len sm = ((entries sm).length : Int) := by
  unfold Len entries
  rw [foldl_mapLen]
  simp

theorem length_flatMap_modify (l : List (Shard K V)) (i : Nat)
    (g : List (K × V) → List (K × V)) (shard : Shard K V) (h : l[i]? = some shard) :
    (((l.modify (fun sh => { items := g sh.items }) i).flatMap (fun sh => sh.items)).length : Int)
      = ((l.flatMap (fun sh => sh.items)).length : Int) - (shard.items.length : Int)
        + ((g shard.items).length : Int) := by
  induction l generalizing i with
  | nil => simp at h
  | cons first rest ih =>
    cases i with
    | zero =>
      simp only [List.getElem?_cons_zero, Option.some.injEq] at h
      subst h
      simp only [List.modify_zero_cons, List.flatMap_cons, List.length_append]
      push_cast
      ring
    | succ j =>
      simp only [List.getElem?_cons_succ] at h
      simp only [List.modify_succ_cons, List.flatMap_cons, List.length_append]
      push_cast
      rw [ih j h]
      ring

theorem Len_updateShard (sm : ShardingMap K V) (i : Nat) (g : List (K × V) → List (K × V))
    (shard : Shard K V) (h : sm.shards[i]? = some shard) :
    Len (updateShard sm i g) = Len sm - mapLen shard.items + mapLen (g shard.items) := by
  rw [Len_eq_length, Len_eq_length]
  exact length_flatMap_modify sm.shards i g shard h

end Aggregate

/-! ## Overwriting and deleting in place -/

section InPlace

set_option linter.unusedSectionVars false

variable {K V : Type} [DecidableEq K]

theorem Set_of_getShard {sm : ShardingMap K V} {key : K} {i : Nat} (value : V)
    (h : getShard sm key = .ok i) :
    Set sm key value = .ok (updateShard sm i (fun m => mapStore m key value)) := by
  rw [Set_eq, h]

theorem Delete_of_getShard {sm : ShardingMap K V} {key : K} {i : Nat}
    (h : getShard sm key = .ok i) :
    Delete sm key = .ok (updateShard sm i (fun m => mapDelete m key)) := by
  rw [Delete_eq, h]

theorem getShard_of_Set {sm sm' : ShardingMap K V} {key : K} {value : V}
    (h : Set sm key value = .ok sm') :
    ∃ i, getShard sm key = .ok i ∧ sm' = updateShard sm i (fun m => mapStore m key value) := by
  rw [Set_eq] at h
  cases hk : getShard sm key with
  | error e => rw [hk] at h; cases h
  | ok i =>
    rw [hk] at h
    cases h
    exact ⟨i, rfl, rfl⟩

theorem getShard_of_Delete {sm sm' : ShardingMap K V} {key : K}
    (h : Delete sm key = .ok sm') :
    ∃ i, getShard sm key = .ok i ∧ sm' = updateShard sm i (fun m => mapDelete m key) := by
  rw [Delete_eq] at h
  cases hk : getShard sm key with
  | error e => rw [hk] at h; cases h
  | ok i =>
    rw [hk] at h
    cases h
    exact ⟨i, rfl, rfl⟩

theorem updateShard_eq_self (sm : ShardingMap K V) (i : Nat) (g : List (K × V) → List (K × V))
    (h : ∀ shard, sm.shards[i]? = some shard → g shard.items = shard.items) :
    updateShard sm i g = sm := by
  have hs : (updateShard sm i g).shards = sm.shards := by
    apply List.ext_getElem?
    intro j
    rw [shards_updateShard]
    cases hj : sm.shards[j]? with
    | none => rfl
    | some shard =>
      by_cases hij : i = j
      · subst hij
        simp [h shard hj]
      · simp [hij]
  cases sm
  simp only [updateShard] at hs ⊢
  rw [hs]

theorem Len_Set_Set {sm : ShardingMap K V} {key : K} {i : Nat} (v1 v2 : V)
    (h : getShard sm key = .ok i) :
    Len (updateShard (updateShard sm i (fun m => mapStore m key v1)) i
        (fun m => mapStore m key v2))
      = Len (updateShard sm i (fun m => mapStore m key v1)) := by
  have hlt := getShard_lt h
  have hs : (updateShard sm i (fun m => mapStore m key v1)).shards[i]?
      = some { items := mapStore (sm.shards[i]).items key v1 } := by
    rw [shards_updateShard, List.getElem?_eq_getElem hlt]
    simp
  rw [Len_updateShard _ i _ _ hs]
  have hmem : key ∈ (mapStore (sm.shards[i]).items key v1).map Prod.fst :=
    (keys_mapStore _ key v1 key).2 (Or.inl rfl)
  simp only [mapLen, length_mapStore_of_mem _ key v2 hmem]
  omega

theorem overwrite_of_getShard [Inhabited V] {sm : ShardingMap K V} {key : K} {i : Nat}
    (v1 v2 : V) (h : getShard sm key = .ok i) :
    ∃ sm1 sm2, Set sm key v1 = .ok sm1 ∧ Set sm1 key v2 = .ok sm2
      ∧ Get sm2 key = .ok (v2, true) ∧ Len sm2 = Len sm1 := by
  have h1 := Set_of_getShard v1 h
  have hk1 : getShard (updateShard sm i (fun m => mapStore m key v1)) key = .ok i := by
    rw [getShard_updateShard]
    exact h
  have h2 := Set_of_getShard v2 hk1
  exact ⟨_, _, h1, h2, Get_Set_self h2, Len_Set_Set v1 v2 h⟩

theorem Delete_absent [Inhabited V] {sm : ShardingMap K V} {key : K} {v : V}
    (h : Get sm key = .ok (v, false)) : Delete sm key = .ok sm := by
  unfold Get at h
  cases hk : getShard sm key with
  | error e => rw [hk] at h; cases h
  | ok i =>
    rw [hk] at h
    rw [Delete_of_getShard hk]
    congr 1
    apply updateShard_eq_self
    intro shard hs
    simp only [hs, Except.ok.injEq] at h
    apply mapDelete_of_absent
    rw [h]

end InPlace

/-! ## The entries of a well-formed container -/

section Entries

set_option linter.unusedSectionVars false

variable {K V : Type} [DecidableEq K]

theorem entries_keys_nodup {sm : ShardingMap K V} (hinv : Inv sm) :
    ((entries sm).map Prod.fst).Nodup := by
  unfold entries
  rw [List.map_flatMap, List.nodup_flatMap]
  constructor
  · intro shard hmem
    obtain ⟨i, hi⟩ := List.mem_iff_getElem?.1 hmem
    exact hinv.nodup i shard hi
  · rw [List.pairwise_iff_getElem]
    intro i j hi hj hij
    show List.Disjoint ((sm.shards[i]).items.map Prod.fst) ((sm.shards[j]).items.map Prod.fst)
    intro key h1 h2
    obtain ⟨e1, he1, hk1⟩ := List.mem_map.1 h1
    obtain ⟨e2, he2, hk2⟩ := List.mem_map.1 h2
    have r1 := hinv.routed i _ (List.getElem?_eq_getElem hi) e1 he1
    have r2 := hinv.routed j _ (List.getElem?_eq_getElem hj) e2 he2
    rw [hk1] at r1
    rw [hk2, r1] at r2
    cases r2
    omega

theorem mem_entries_iff [Inhabited V] {sm : ShardingMap K V} (hinv : Inv sm) (k : K) (v : V) :
    (k, v) ∈ entries sm ↔ Get sm k = .ok (v, true) := by
  unfold entries
  rw [List.mem_flatMap]
  constructor
  · rintro ⟨shard, hmem, he⟩
    obtain ⟨i, hi⟩ := List.mem_iff_getElem?.1 hmem
    have hk := hinv.routed i shard hi (k, v) he
    unfold Get
    simp only [hk, hi]
    rw [(mapLookup_eq_iff_mem shard.items (hinv.nodup i shard hi) k v).2 he]
  · intro h
    unfold Get at h
    cases hk : getShard sm k with
    | error e => rw [hk] at h; cases h
    | ok i =>
      cases hs : sm.shards[i]? with
      | none => simp [hk, hs] at h
      | some shard =>
        simp only [hk, hs, Except.ok.injEq] at h
        exact ⟨shard, List.getElem?_mem hs,
          (mapLookup_eq_iff_mem shard.items (hinv.nodup i shard hs) k v).1 h⟩

theorem mem_entries_keys_iff [Inhabited V] {sm : ShardingMap K V} (hinv : Inv sm) (k : K) :
    k ∈ (entries sm).map Prod.fst ↔ ∃ v, Get sm k = .ok (v, true) := by
  rw [List.mem_map]
  constructor
  · rintro ⟨⟨k', v⟩, he, rfl⟩
    exact ⟨v, (mem_entries_iff hinv k' v).1 he⟩
  · rintro ⟨v, hv⟩
    exact ⟨(k, v), (mem_entries_iff hinv k v).2 hv, rfl⟩

end Entries

/-! ## Configuration and contents along a history -/

section History

set_option linter.unusedSectionVars false

variable {K V : Type} [DecidableEq K]

theorem apply_config (sm : ShardingMap K V) (op : Op K V) :
    (op.apply sm).shardCount = sm.shardCount ∧ (op.apply sm).shardingFunc = sm.shardingFunc
      ∧ (op.apply sm).shards.length = sm.shards.length := by
  cases op with
  | set key value =>
    show (settle sm (Set sm key value)).shardCount = _ ∧ (settle sm (Set sm key value)).shardingFunc = _
      ∧ (settle sm (Set sm key value)).shards.length = _
    rw [Set_eq]
    cases getShard sm key with
    | error e => exact ⟨rfl, rfl, rfl⟩
    | ok i => exact ⟨rfl, rfl, by simp [settle, updateShard]⟩
  | delete key =>
    show (settle sm (Delete sm key)).shardCount = _ ∧ (settle sm (Delete sm key)).shardingFunc = _
      ∧ (settle sm (Delete sm key)).shards.length = _
    rw [Delete_eq]
    cases getShard sm key with
    | error e => exact ⟨rfl, rfl, rfl⟩
    | ok i => exact ⟨rfl, rfl, by simp [settle, updateShard]⟩

theorem runOps_config (sm : ShardingMap K V) (ops : List (Op K V)) :
    (runOps sm ops).shardCount = sm.shardCount ∧ (runOps sm ops).shardingFunc = sm.shardingFunc
      ∧ (runOps sm ops).shards.length = sm.shards.length := by
  induction ops generalizing sm with
  | nil => exact ⟨rfl, rfl, rfl⟩
  | cons op rest ih =>
    obtain ⟨h1, h2, h3⟩ := ih (op.apply sm)
    obtain ⟨g1, g2, g3⟩ := apply_config sm op
    exact ⟨h1.trans g1, h2.trans g2, h3.trans g3⟩

theorem runOps_append (sm : ShardingMap K V) (ops : List (Op K V)) (op : Op K V) :
    runOps sm (ops ++ [op]) = op.apply (runOps sm ops) := by
  simp [runOps, List.foldl_append]

theorem lastValue_append (ops : List (Op K V)) (op : Op K V) (key : K) :
    lastValue (ops ++ [op]) key =
      if op.key = key then
        match op with
        | .set _ value => some value
        | .delete _ => none
      else lastValue ops key := by
  simp [lastValue, List.foldl_append]

theorem Get_error_of_neg [Inhabited V] {sm : ShardingMap K V} {key : K}
    (h : ¬ 0 ≤ Int.tmod (sm.shardingFunc key) sm.shardCount) (r : V × Bool) :
    Get sm key ≠ .ok r := by
  intro hget
  unfold Get at hget
  cases hk : getShard sm key with
  | error e => rw [hk] at hget; cases hget
  | ok i =>
    have := getShard_index hk
    omega

theorem Get_New [Inhabited V] (render : K → List (Fin 256)) (opts : List (OptSpec K)) (key : K)
    (h : 0 ≤ Int.tmod ((New render (opts.map OptSpec.toOpt) : ShardingMap K V).shardingFunc key)
      (New render (opts.map OptSpec.toOpt) : ShardingMap K V).shardCount) :
    Get (New render (opts.map OptSpec.toOpt) : ShardingMap K V) key = .ok (default, false) := by
  have hk := getShard_of_Inv (Inv_New render opts) h
  have hlt := getShard_lt hk
  unfold Get
  rw [hk]
  simp only [List.getElem?_eq_getElem hlt]
  have := New_getElem? render (opts.map OptSpec.toOpt) _ _ (List.getElem?_eq_getElem hlt)
  rw [this]
  rfl

theorem Get_reachable_iff [Inhabited V] (render : K → List (Fin 256)) (opts : List (OptSpec K))
    (ops : List (Op K V)) (key : K) (v : V) :
    Get (runOps (New render (opts.map OptSpec.toOpt)) ops) key = .ok (v, true) ↔
      (0 ≤ Int.tmod ((runOps (New render (opts.map OptSpec.toOpt)) ops : ShardingMap K V).shardingFunc key)
          (runOps (New render (opts.map OptSpec.toOpt)) ops : ShardingMap K V).shardCount
        ∧ lastValue ops key = some v) := by
  induction ops using List.reverseRecOn with
  | nil =>
    constructor
    · intro h
      by_cases hidx : 0 ≤ Int.tmod
          ((New render (opts.map OptSpec.toOpt) : ShardingMap K V).shardingFunc key)
          (New render (opts.map OptSpec.toOpt) : ShardingMap K V).shardCount
      · have := Get_New render opts key hidx
        simp only [runOps, List.foldl_nil] at h
        rw [this] at h
        simp at h
      · exact absurd h (Get_error_of_neg hidx _)
    · rintro ⟨_, h⟩
      simp [lastValue] at h
  | append_singleton ops op ih =>
    have hinv := @Inv_reachable K V _ render opts ops
    obtain ⟨c1, c2, _⟩ := apply_config (runOps (New render (opts.map OptSpec.toOpt)) ops) op
    rw [runOps_append, lastValue_append, c1, c2]
    by_cases hkey : op.key = key
    · rw [if_pos hkey]
      by_cases hidx : 0 ≤ Int.tmod
          ((runOps (New render (opts.map OptSpec.toOpt)) ops : ShardingMap K V).shardingFunc key)
          (runOps (New render (opts.map OptSpec.toOpt)) ops : ShardingMap K V).shardCount
      · have hk := getShard_of_Inv hinv hidx
        cases op with
        | set k2 v2 =>
          simp only [Op.key] at hkey
          subst hkey
          have hset := Set_of_getShard v2 hk
          show Get (settle _ (Set _ k2 v2)) k2 = _ ↔ _
          rw [hset]
          simp only [settle]
          rw [Get_Set_self hset]
          simp [hidx]
        | delete k2 =>
          simp only [Op.key] at hkey
          subst hkey
          have hdel := Delete_of_getShard hk
          show Get (settle _ (Delete _ k2)) k2 = _ ↔ _
          rw [hdel]
          simp only [settle]
          rw [Get_Delete_self hdel]
          simp
      · constructor
        · intro h
          have hneg : ¬ 0 ≤ Int.tmod ((op.apply (runOps (New render (opts.map OptSpec.toOpt)) ops)).shardingFunc key)
              (op.apply (runOps (New render (opts.map OptSpec.toOpt)) ops)).shardCount := by
            rw [c1, c2]; exact hidx
          exact absurd h (Get_error_of_neg hneg _)
        · rintro ⟨h, _⟩
          exact absurd h hidx
    · rw [if_neg hkey, Get_apply_ne _ op hkey]
      exact ih

end History

/-! ## The calls made by ForEach -/

section Visits

set_option linter.unusedSectionVars false

variable {K V : Type} [DecidableEq K]

theorem ForEach_eq_foldl {σ : Type} (order : List (K × V) → List (K × V))
    (sm : ShardingMap K V) (f : K → V → σ → σ) (s : σ) :
    ForEach order sm f s =
      (sm.shards.flatMap (fun shard => order shard.items)).foldl (fun s e => f e.1 e.2 s) s := by
  unfold ForEach
  generalize sm.shards = l
  induction l generalizing s with
  | nil => rfl
  | cons shard rest ih =>
    simp only [List.foldl_cons, List.flatMap_cons, List.foldl_append]
    exact ih _

theorem foldl_log (l log : List (K × V)) :
    l.foldl (fun log e => log ++ [(e.1, e.2)]) log = log ++ l := by
  induction l generalizing log with
  | nil => simp
  | cons e rest ih => simp [ih]

theorem visits_eq (order : List (K × V) → List (K × V)) (sm : ShardingMap K V) :
    visits order sm = sm.shards.flatMap (fun shard => order shard.items) := by
  unfold visits
  rw [ForEach_eq_foldl, foldl_log]
  simp

theorem visits_perm (order : List (K × V) → List (K × V)) (sm : ShardingMap K V)
    (horder : ∀ m, List.Perm (order m) m) : List.Perm (visits order sm) (entries sm) := by
  rw [visits_eq]
  exact List.Perm.flatMap_left _ (fun shard _ => horder shard.items)

theorem foldl_weights (w : V → Int) (l : List (K × V)) (a : Int) :
    l.foldl (fun total e => total + w e.2) a = a + (l.map (fun e => w e.2)).sum := by
  induction l generalizing a with
  | nil => simp
  | cons e rest ih =>
    simp only [List.foldl_cons, List.map_cons, List.sum_cons]
    rw [ih]
    ring

theorem storedValue_of_Get [Inhabited V] {sm : ShardingMap K V} {k : K} {v : V} {b : Bool}
    (h : Get sm k = .ok (v, b)) : storedValue sm k = v := by
  unfold storedValue
  rw [h]

end Visits

/-! ## The options, one after another -/

section Configure

set_option linter.unusedSectionVars false

variable {K V : Type} [DecidableEq K]

theorem getLast?_cons_getD {α : Type} (a d : α) (l : List α) :
    ((a :: l).getLast?).getD d = (l.getLast?).getD a := by
  cases l with
  | nil => rfl
  | cons b rest =>
    rw [List.getLast?_cons_cons, List.getLast?_eq_getLast (b :: rest) (List.cons_ne_nil b rest)]
    rfl

theorem configure_shardCount (opts : List (OptSpec K)) (sm : ShardingMap K V) :
    ((opts.map OptSpec.toOpt).foldl (fun sm opt => opt sm) sm).shardCount =
      ((opts.filterMap (fun o =>
          match o with
          | .shardCount count => if count > 0 then some count else none
          | .shardingFunc _ => none)).getLast?).getD sm.shardCount := by
  induction opts generalizing sm with
  | nil => rfl
  | cons o rest ih =>
    simp only [List.map_cons, List.foldl_cons]
    rw [ih]
    cases o with
    | shardCount count =>
      by_cases hc : count > 0
      · simp only [OptSpec.toOpt, WithShardCount, hc, if_true, List.filterMap_cons]
        rw [getLast?_cons_getD]
      · simp only [OptSpec.toOpt, WithShardCount, hc, if_false, List.filterMap_cons]
    | shardingFunc fn =>
      cases fn with
      | none => simp only [OptSpec.toOpt, WithShardingFunc, List.filterMap_cons]
      | some f => simp only [OptSpec.toOpt, WithShardingFunc, List.filterMap_cons]

theorem configure_shardingFunc (opts : List (OptSpec K)) (sm : ShardingMap K V) :
    ((opts.map OptSpec.toOpt).foldl (fun sm opt => opt sm) sm).shardingFunc =
      ((opts.filterMap (fun o =>
          match o with
          | .shardCount _ => none
          | .shardingFunc fn => fn)).getLast?).getD sm.shardingFunc := by
  induction opts generalizing sm with
  | nil => rfl
  | cons o rest ih =>
    simp only [List.map_cons, List.foldl_cons]
    rw [ih]
    cases o with
    | shardCount count =>
      by_cases hc : count > 0
      · simp only [OptSpec.toOpt, WithShardCount, hc, if_true, List.filterMap_cons]
      · simp only [OptSpec.toOpt, WithShardCount, hc, if_false, List.filterMap_cons]
    | shardingFunc fn =>
      cases fn with
      | none => simp only [OptSpec.toOpt, WithShardingFunc, List.filterMap_cons]
      | some f =>
        simp only [OptSpec.toOpt, WithShardingFunc, List.filterMap_cons]
        rw [getLast?_cons_getD]

theorem Len_New (render : K → List (Fin 256)) (opts : List (Opt K V)) :
    Len (New render opts) = 0 := by
  rw [Len_eq_length]
  have : entries (New render opts) = [] := by
    unfold entries
    rw [List.flatMap_eq_nil_iff]
    intro shard hmem
    obtain ⟨i, hi⟩ := List.mem_iff_getElem?.1 hmem
    exact New_getElem? render opts i shard hi
  rw [this]
  rfl

end Configure

/-! ## Presence, remainders of negative values -/

section Presence

set_option linter.unusedSectionVars false

variable {K V : Type} [DecidableEq K]

theorem Get_ok_iff [Inhabited V] (sm : ShardingMap K V) (key : K) (r : V × Bool) :
    Get sm key = .ok r ↔
      ∃ i shard, getShard sm key = .ok i ∧ sm.shards[i]? = some shard
        ∧ mapLookup shard.items key = r := by
  unfold Get
  cases hk : getShard sm key with
  | error e => simp
  | ok i =>
    cases hs : sm.shards[i]? with
    | none => simp [hs]
    | some shard => simp [hs]

theorem length_mapDelete_of_mem (m : List (K × V)) (k : K) (hn : KeysNodup m)
    (h : k ∈ m.map Prod.fst) : (mapDelete m k).length + 1 = m.length := by
  unfold KeysNodup at hn
  induction m with
  | nil => simp at h
  | cons e rest ih =>
    obtain ⟨k', v'⟩ := e
    simp only [List.map_cons, List.nodup_cons] at hn
    by_cases hk : k' = k
    · subst hk
      have hrest : mapDelete rest k' = rest := by
        unfold mapDelete
        rw [List.filter_eq_self]
        intro e he
        have : e.1 ≠ k' := fun hh => hn.1 (hh ▸ List.mem_map_of_mem Prod.fst he)
        simpa using this
      have : mapDelete ((k', v') :: rest) k' = mapDelete rest k' := by
        simp [mapDelete, List.filter_cons]
      rw [this, hrest]
      simp
    · have hmem : k ∈ rest.map Prod.fst := by
        simp only [List.map_cons, List.mem_cons] at h
        rcases h with h | h
        · exact absurd h.symm hk
        · exact h
      have : mapDelete ((k', v') :: rest) k = (k', v') :: mapDelete rest k := by
        simp [mapDelete, List.filter_cons, hk]
      rw [this]
      simp only [List.length_cons]
      rw [ih hn.2 hmem]

theorem tmod_of_neg {a b : Int} (ha : a < 0) (hb : 0 < b) :
    Int.tmod a b = -((-a) % b) := by
  obtain ⟨m, rfl⟩ := Int.eq_negSucc_of_lt_zero ha
  obtain ⟨n, rfl⟩ := Int.eq_ofNat_of_zero_le (Int.le_of_lt hb)
  show -Int.ofNat (Nat.succ m % n) = -((-Int.negSucc m) % (n : Int))
  rw [Int.neg_negSucc]
  rfl

theorem tmod_neg_range {a b : Int} (ha : a < 0) (hb : 0 < b) (hdvd : ¬ b ∣ a) :
    -b < Int.tmod a b ∧ Int.tmod a b < 0 := by
  have h0 : Int.tmod a b ≠ 0 := fun h => hdvd (Int.dvd_of_tmod_eq_zero h)
  have h1 := tmod_of_neg ha hb
  have h2 : 0 ≤ (-a) % b := Int.emod_nonneg _ (by omega)
  have h3 : (-a) % b < b := Int.emod_lt_of_pos _ hb
  constructor <;> omega

theorem getShard_of_neg {sm : ShardingMap K V} (hpos : 0 < sm.shardCount) {key : K}
    (h : Int.tmod (sm.shardingFunc key) sm.shardCount < 0) :
    getShard sm key = .error .indexOutOfRange := by
  have hne : sm.shardCount ≠ 0 := by omega
  have hn : ¬ 0 ≤ Int.tmod (sm.shardingFunc key) sm.shardCount := by omega
  unfold getShard
  simp [hne, hn]

end Presence

/-! ## The effect of one mutation on Len -/

section LenStep

set_option linter.unusedSectionVars false

variable {K V : Type} [DecidableEq K]

theorem len_step [Inhabited V] (render : K → List (Fin 256)) (sm : ShardingMap K V)
    (k : K) (v0 : V) (found : Bool) (hr : Reachable render sm)
    (hget : Get sm k = .ok (v0, found)) :
    (∀ v : V, ∃ sm', Set sm k v = .ok sm'
        ∧ Len sm' = if found then Len sm else Len sm + 1)
    ∧ (∃ sm', Delete sm k = .ok sm'
        ∧ Len sm' = if found then Len sm - 1 else Len sm) := by
  obtain ⟨opts, ops, rfl⟩ := hr
  have hinv := @Inv_reachable K V _ render opts ops
  obtain ⟨i, shard, hk, hs, hlook⟩ := (Get_ok_iff _ k (v0, found)).1 hget
  have hfound : (mapLookup shard.items k).2 = found := by rw [hlook]
  constructor
  · intro v
    refine ⟨_, Set_of_getShard v hk, ?_⟩
    rw [Len_updateShard _ i _ shard hs]
    cases found with
    | true =>
      have hmem := (mapLookup_found_iff shard.items k).1 hfound
      simp only [mapLen, length_mapStore_of_mem _ k v hmem, if_true]
      omega
    | false =>
      have hmem : k ∉ shard.items.map Prod.fst := by
        intro hm
        have := (mapLookup_found_iff shard.items k).2 hm
        rw [hfound] at this
        cases this
      simp only [mapLen, length_mapStore_of_not_mem _ k v hmem]
      simp only [Bool.false_eq_true, if_false]
      push_cast
      omega
  · refine ⟨_, Delete_of_getShard hk, ?_⟩
    rw [Len_updateShard _ i _ shard hs]
    cases found with
    | true =>
      have hmem := (mapLookup_found_iff shard.items k).1 hfound
      have hlen := length_mapDelete_of_mem shard.items k (hinv.nodup i shard hs) hmem
      simp only [mapLen, if_true]
      omega
    | false =>
      rw [mapDelete_of_absent shard.items k hfound]
      simp only [Bool.false_eq_true, if_false]
      omega

end LenStep

/-! ## Histories of calls -/

section Calls

set_option linter.unusedSectionVars false

variable {K V σ : Type} [DecidableEq K] [Inhabited V]

theorem exec_config (order : List (K × V) → List (K × V)) (sm : ShardingMap K V)
    (call : Call K V σ) :
    (call.exec order sm).1.shardCount = sm.shardCount
    ∧ (call.exec order sm).1.shardingFunc = sm.shardingFunc
    ∧ (call.exec order sm).1.shards.length = sm.shards.length := by
  cases call with
  | set key value =>
    simp only [Call.exec, Set_eq]
    cases getShard sm key with
    | error e => exact ⟨rfl, rfl, rfl⟩
    | ok i => exact ⟨rfl, rfl, by simp [updateShard]⟩
  | get key =>
    simp only [Call.exec]
    cases Get sm key <;> exact ⟨rfl, rfl, rfl⟩
  | delete key =>
    simp only [Call.exec, Delete_eq]
    cases getShard sm key with
    | error e => exact ⟨rfl, rfl, rfl⟩
    | ok i => exact ⟨rfl, rfl, by simp [updateShard]⟩
  | len => exact ⟨rfl, rfl, rfl⟩
  | forEach f s => exact ⟨rfl, rfl, rfl⟩

theorem runCalls_config (order : List (K × V) → List (K × V)) (sm : ShardingMap K V)
    (calls : List (Call K V σ)) :
    (runCalls order sm calls).1.shardCount = sm.shardCount
    ∧ (runCalls order sm calls).1.shardingFunc = sm.shardingFunc
    ∧ (runCalls order sm calls).1.shards.length = sm.shards.length := by
  induction calls generalizing sm with
  | nil => exact ⟨rfl, rfl, rfl⟩
  | cons call rest ih =>
    obtain ⟨h1, h2, h3⟩ := ih (call.exec order sm).1
    obtain ⟨g1, g2, g3⟩ := exec_config order sm call
    exact ⟨h1.trans g1, h2.trans g2, h3.trans g3⟩

theorem exec_reads (order : List (K × V) → List (K × V)) (sm : ShardingMap K V) :
    (∀ key, ((Call.get key : Call K V σ).exec order sm).1 = sm)
    ∧ ((Call.len : Call K V σ).exec order sm).1 = sm
    ∧ (∀ (f : K → V → σ → σ) (s : σ), ((Call.forEach f s).exec order sm).1 = sm) := by
  refine ⟨?_, rfl, fun _ _ => rfl⟩
  intro key
  simp only [Call.exec]
  cases Get sm key <;> rfl

end Calls

/-! ## The simulation is kept by every call -/

section Simulation

set_option linter.unusedSectionVars false

variable {K V σ : Type} [DecidableEq K] [Inhabited V]

theorem Sim_getShard {sm : ShardingMap K V} {m : List (K × V)} (h : Sim sm m) (k : K) :
    getShard sm k = .ok (Int.tmod (sm.shardingFunc k) sm.shardCount).toNat :=
  getShard_of_Inv h.inv (Int.tmod_nonneg _ (h.nonneg k))

theorem Sim_New (render : K → List (Fin 256)) (opts : List (OptSpec K))
    (hnonneg : ∀ k, 0 ≤ (New render (opts.map OptSpec.toOpt) : ShardingMap K V).shardingFunc k) :
    Sim (New render (opts.map OptSpec.toOpt) : ShardingMap K V) [] := by
  refine ⟨Inv_New render opts, hnonneg, ?_, ?_⟩
  · simp [KeysNodup]
  · intro k
    exact Get_New render opts k (Int.tmod_nonneg _ (hnonneg k))

theorem Sim_len {sm : ShardingMap K V} {m : List (K × V)} (h : Sim sm m) :
    Len sm = mapLen m := by
  rw [Len_eq_length]
  have h1 : (entries sm).Nodup := List.Nodup.of_map _ (entries_keys_nodup h.inv)
  have h2 : m.Nodup := List.Nodup.of_map _ h.nodup
  have hperm : List.Perm (entries sm) m := by
    rw [List.perm_ext_iff_of_nodup h1 h2]
    rintro ⟨k, v⟩
    rw [mem_entries_iff h.inv, h.get k, ← mapLookup_eq_iff_mem m h.nodup k v]
    simp
  rw [hperm.length_eq]
  rfl

theorem Sim_set {sm : ShardingMap K V} {m : List (K × V)} (h : Sim sm m) (key : K) (value : V) :
    ∃ sm', Set sm key value = .ok sm' ∧ Sim sm' (mapStore m key value) := by
  have hk := Sim_getShard h key
  have hset := Set_of_getShard value hk
  refine ⟨_, hset, ?_, ?_, mapStore_keysNodup m key value h.nodup, ?_⟩
  · have := Inv_apply h.inv (Op.set key value)
    simpa [Op.apply, hset, settle] using this
  · exact h.nonneg
  · intro k
    by_cases hkk : k = key
    · subst hkk
      rw [Get_Set_self hset, mapLookup_mapStore_self]
    · have := Get_settle_Set_ne sm value hkk
      rw [hset] at this
      simp only [settle] at this
      rw [this, h.get k, mapLookup_mapStore_ne m value hkk]

theorem Sim_delete {sm : ShardingMap K V} {m : List (K × V)} (h : Sim sm m) (key : K) :
    ∃ sm', Delete sm key = .ok sm' ∧ Sim sm' (mapDelete m key) := by
  have hk := Sim_getShard h key
  have hdel := Delete_of_getShard hk
  refine ⟨_, hdel, ?_, ?_, mapDelete_keysNodup m key h.nodup, ?_⟩
  · have := Inv_apply h.inv (Op.delete key : Op K V)
    simpa [Op.apply, hdel, settle] using this
  · exact h.nonneg
  · intro k
    by_cases hkk : k = key
    · subst hkk
      rw [Get_Delete_self hdel, mapLookup_mapDelete_self]
    · have := Get_settle_Delete_ne sm hkk
      rw [hdel] at this
      simp only [settle] at this
      rw [this, h.get k, mapLookup_mapDelete_ne m hkk]

theorem Sim_exec (order : List (K × V) → List (K × V)) {sm : ShardingMap K V}
    {m : List (K × V)} (h : Sim sm m) (call : Call K V σ) (hq : call.isForEach = false) :
    Sim (call.exec order sm).1 (plainExec order m call).1
      ∧ (call.exec order sm).2 = (plainExec order m call).2 := by
  cases call with
  | set key value =>
    obtain ⟨sm', hset, hsim⟩ := Sim_set h key value
    simp only [Call.exec, hset, plainExec]
    exact ⟨hsim, trivial⟩
  | get key =>
    simp only [Call.exec, h.get key, plainExec]
    exact ⟨h, trivial⟩
  | delete key =>
    obtain ⟨sm', hdel, hsim⟩ := Sim_delete h key
    simp only [Call.exec, hdel, plainExec]
    exact ⟨hsim, trivial⟩
  | len =>
    simp only [Call.exec, plainExec, Sim_len h]
    exact ⟨h, trivial⟩
  | forEach f s => simp [Call.isForEach] at hq

theorem Sim_run (order : List (K × V) → List (K × V)) {sm : ShardingMap K V}
    {m : List (K × V)} (h : Sim sm m) (calls : List (Call K V σ))
    (hq : ∀ call ∈ calls, call.isForEach = false) :
    (runCalls order sm calls).2 = (runPlain order m calls).2 := by
  induction calls generalizing sm m with
  | nil => rfl
  | cons call rest ih =>
    obtain ⟨hsim, hres⟩ := Sim_exec order h call (hq call (List.mem_cons_self _ _))
    have := ih hsim (fun c hc => hq c (List.mem_cons_of_mem _ hc))
    simp only [runCalls, runPlain, hres, this]

end Simulation

/-! ## The default hash -/

section Hash

theorem fnv32aWrite_eq_fnv1aFrom (h : Nat) (data : List (Fin 256)) :
    fnv32aWrite h data = fnv1aFrom h data := by
  induction data generalizing h with
  | nil => rfl
  | cons b rest ih =>
    simp only [fnv32aWrite, List.foldl_cons, fnv1aFrom] at ih ⊢
    exact ih _

theorem fnv1aFrom_lt (h : Nat) (data : List (Fin 256)) (hlt : h < 2 ^ 32) :
    fnv1aFrom h data < 2 ^ 32 := by
  induction data generalizing h with
  | nil => exact hlt
  | cons b rest ih =>
    simp only [fnv1aFrom]
    exact ih _ (Nat.mod_lt _ (by decide))

theorem fnv1a32_lt (data : List (Fin 256)) : fnv1a32 data < 2 ^ 32 :=
  fnv1aFrom_lt _ data (by decide)

theorem toInt64_of_lt (n : Nat) (h : n < 2 ^ 32) : toInt64 n = (n : Int) := by
  have h1 : n % 2 ^ 64 = n := Nat.mod_eq_of_lt (by omega)
  have h2 : n < 2 ^ 63 := by omega
  unfold toInt64
  rw [h1, if_pos h2]

theorem defaultShardingFunc_eq {K : Type} (render : K → List (Fin 256)) (key : K) :
    defaultShardingFunc render key = ((fnv1a32 (render key) : Nat) : Int) := by
  unfold defaultShardingFunc fnv1a32
  rw [fnv32aWrite_eq_fnv1aFrom]
  rfl

end Hash

/-! ## Where Set puts a key -/

section Placement

set_option linter.unusedSectionVars false

variable {K V : Type} [DecidableEq K]

theorem Inv_Set {sm sm' : ShardingMap K V} {key : K} {value : V} (hinv : Inv sm)
    (h : Set sm key value = .ok sm') : Inv sm' := by
  have := Inv_apply hinv (Op.set key value)
  simpa [Op.apply, h, settle] using this

theorem Inv_Delete {sm sm' : ShardingMap K V} {key : K} (hinv : Inv sm)
    (h : Delete sm key = .ok sm') : Inv sm' := by
  have := Inv_apply hinv (Op.delete key : Op K V)
  simpa [Op.apply, h, settle] using this

theorem getShard_Set {sm sm' : ShardingMap K V} {key : K} {value : V}
    (h : Set sm key value = .ok sm') (k : K) : getShard sm' k = getShard sm k := by
  obtain ⟨i, _, rfl⟩ := getShard_of_Set h
  exact getShard_updateShard sm i _ k

theorem stored_of_Get [Inhabited V] {sm : ShardingMap K V} (hinv : Inv sm) {k : K} {v : V}
    {i : Nat} (hk : getShard sm k = .ok i) (hget : Get sm k = .ok (v, true)) :
    ∃ shard, sm.shards[i]? = some shard ∧ (k, v) ∈ shard.items := by
  obtain ⟨j, shard, hj, hs, hlook⟩ := (Get_ok_iff sm k (v, true)).1 hget
  rw [hk] at hj
  cases hj
  exact ⟨shard, hs, (mapLookup_eq_iff_mem shard.items (hinv.nodup i shard hs) k v).1 hlook⟩

theorem not_stored_elsewhere {sm : ShardingMap K V} (hinv : Inv sm) {k : K} {i j : Nat}
    {shard : Shard K V} (hk : getShard sm k = .ok i) (hs : sm.shards[j]? = some shard)
    (hij : i ≠ j) : k ∉ shard.items.map Prod.fst := by
  intro hmem
  obtain ⟨e, he, rfl⟩ := List.mem_map.1 hmem
  have := hinv.routed j shard hs e he
  rw [hk] at this
  cases this
  exact hij rfl

theorem two_keys_two_shards [Inhabited V] {sm : ShardingMap K V} (hinv : Inv sm)
    (k1 k2 : K) (v1 v2 : V) {i1 i2 : Nat} (h1 : getShard sm k1 = .ok i1)
    (h2 : getShard sm k2 = .ok i2) (hne : i1 ≠ i2) :
    ∃ sm1 sm2 s1 s2, Set sm k1 v1 = .ok sm1 ∧ Set sm1 k2 v2 = .ok sm2
      ∧ sm2.shards[i1]? = some s1 ∧ sm2.shards[i2]? = some s2
      ∧ (k1, v1) ∈ s1.items ∧ (k2, v2) ∈ s2.items
      ∧ k1 ∉ s2.items.map Prod.fst ∧ k2 ∉ s1.items.map Prod.fst := by
  have hkeys : k1 ≠ k2 := by
    intro hh
    rw [hh, h2] at h1
    cases h1
    exact hne rfl
  have hset1 := Set_of_getShard v1 h1
  have g2 : getShard (updateShard sm i1 (fun m => mapStore m k1 v1)) k2 = .ok i2 :=
    (getShard_Set hset1 k2).trans h2
  have hset2 := Set_of_getShard v2 g2
  have hinv1 := Inv_Set hinv hset1
  have hinv2 := Inv_Set hinv1 hset2
  have r1 := (getShard_Set hset2 k1).trans ((getShard_Set hset1 k1).trans h1)
  have r2 := (getShard_Set hset2 k2).trans g2
  have hget2 := Get_Set_self hset2
  have hget1 : Get (updateShard (updateShard sm i1 (fun m => mapStore m k1 v1)) i2
      (fun m => mapStore m k2 v2)) k1 = .ok (v1, true) := by
    have := Get_settle_Set_ne (updateShard sm i1 (fun m => mapStore m k1 v1)) v2 hkeys
    rw [hset2] at this
    simp only [settle] at this
    rw [this]
    exact Get_Set_self hset1
  obtain ⟨s1, hs1, hm1⟩ := stored_of_Get hinv2 r1 hget1
  obtain ⟨s2, hs2, hm2⟩ := stored_of_Get hinv2 r2 hget2
  exact ⟨_, _, s1, s2, hset1, hset2, hs1, hs2, hm1, hm2,
    not_stored_elsewhere hinv2 r1 hs2 hne, not_stored_elsewhere hinv2 r2 hs1 (Ne.symm hne)⟩

end Placement

/-! ## Lock calls -/

section Locks

set_option linter.unusedSectionVars false

variable {K V σ : Type} [DecidableEq K]

theorem SetTraced_result (sm : ShardingMap K V) (key : K) (value : V) :
    (SetTraced sm key value).2 = Set sm key value := by
  unfold SetTraced Set
  cases getShard sm key <;> rfl

theorem DeleteTraced_result (sm : ShardingMap K V) (key : K) :
    (DeleteTraced sm key).2 = Delete sm key := by
  unfold DeleteTraced Delete
  cases getShard sm key <;> rfl

theorem GetTraced_result [Inhabited V] (sm : ShardingMap K V) (key : K) :
    (GetTraced sm key).2 = Get sm key := by
  unfold GetTraced Get
  cases getShard sm key with
  | error e => rfl
  | ok i =>
    simp only
    cases hs : sm.shards[i]? <;> rfl

theorem lenLoop_eq (i : Nat) (l : List (Shard K V)) (acc : List LockEvent × Int) :
    lenLoop i l acc =
      (acc.1 ++ (List.range' i l.length).flatMap (fun j => [LockEvent.rLock j, LockEvent.rUnlock j]),
        l.foldl (fun total shard => total + mapLen shard.items) acc.2) := by
  induction l generalizing i acc with
  | nil => simp [lenLoop]
  | cons shard rest ih =>
    simp only [lenLoop, ih, List.length_cons, List.range'_succ, List.flatMap_cons,
      List.foldl_cons, List.append_assoc]

theorem forEachLoop_eq (order : List (K × V) → List (K × V)) (f : K → V → σ → σ) (i : Nat)
    (l : List (Shard K V)) (acc : List LockEvent × σ) :
    forEachLoop order f i l acc =
      (acc.1 ++ (List.range' i l.length).flatMap (fun j => [LockEvent.rLock j, LockEvent.rUnlock j]),
        l.foldl (fun s shard => (order shard.items).foldl (fun s e => f e.1 e.2 s) s) acc.2) := by
  induction l generalizing i acc with
  | nil => simp [forEachLoop]
  | cons shard rest ih =>
    simp only [forEachLoop, ih, List.length_cons, List.range'_succ, List.flatMap_cons,
      List.foldl_cons, List.append_assoc]

theorem LenTraced_eq (sm : ShardingMap K V) :
    LenTraced sm = (sharedPass sm.shards.length, Len sm) := by
  unfold LenTraced sharedPass Len
  rw [lenLoop_eq, List.range_eq_range']
  simp

theorem ForEachTraced_eq (order : List (K × V) → List (K × V)) (sm : ShardingMap K V)
    (f : K → V → σ → σ) (s : σ) :
    ForEachTraced order sm f s = (sharedPass sm.shards.length, ForEach order sm f s) := by
  unfold ForEachTraced sharedPass ForEach
  rw [forEachLoop_eq, List.range_eq_range']
  simp

theorem held_exclusive_pair (i : Nat) (rest : List LockEvent) :
    held (LockEvent.lock i :: LockEvent.unlock i :: rest) = held rest := by
  simp [held, lockStep]

theorem held_shared_pair (i : Nat) (rest : List LockEvent) :
    held (LockEvent.rLock i :: LockEvent.rUnlock i :: rest) = held rest := by
  simp [held, lockStep]

theorem OneAtATime_nil : OneAtATime [] := by
  constructor
  · intro n
    simp [held]
  · rfl

theorem OneAtATime_exclusive_pair (i : Nat) (rest : List LockEvent) (h : OneAtATime rest) :
    OneAtATime (LockEvent.lock i :: LockEvent.unlock i :: rest) := by
  constructor
  · intro n
    match n with
    | 0 => simp [held]
    | 1 => simp [held, lockStep]
    | m + 2 =>
      rw [List.take_succ_cons, List.take_succ_cons, held_exclusive_pair]
      exact h.1 m
  · rw [held_exclusive_pair]
    exact h.2

theorem OneAtATime_shared_pair (i : Nat) (rest : List LockEvent) (h : OneAtATime rest) :
    OneAtATime (LockEvent.rLock i :: LockEvent.rUnlock i :: rest) := by
  constructor
  · intro n
    match n with
    | 0 => simp [held]
    | 1 => simp [held, lockStep]
    | m + 2 =>
      rw [List.take_succ_cons, List.take_succ_cons, held_shared_pair]
      exact h.1 m
  · rw [held_shared_pair]
    exact h.2

theorem OneAtATime_shared_pairs (positions : List Nat) :
    OneAtATime (positions.flatMap (fun i => [LockEvent.rLock i, LockEvent.rUnlock i])) := by
  induction positions with
  | nil => exact OneAtATime_nil
  | cons i rest ih =>
    simp only [List.flatMap_cons, List.cons_append, List.nil_append]
    exact OneAtATime_shared_pair i _ ih

theorem OneAtATime_sharedPass (n : Nat) : OneAtATime (sharedPass n) :=
  OneAtATime_shared_pairs (List.range n)

theorem SetTraced_events (sm : ShardingMap K V) (key : K) (value : V) :
    OneAtATime (SetTraced sm key value).1
      ∧ ∀ i, getShard sm key = .ok i →
          (SetTraced sm key value).1 = [LockEvent.lock i, LockEvent.unlock i] := by
  unfold SetTraced
  cases hk : getShard sm key with
  | error e => exact ⟨OneAtATime_nil, fun i h => by cases h⟩
  | ok j =>
    refine ⟨OneAtATime_exclusive_pair j [] OneAtATime_nil, ?_⟩
    intro i h
    cases h
    rfl

theorem DeleteTraced_events (sm : ShardingMap K V) (key : K) :
    OneAtATime (DeleteTraced sm key).1
      ∧ ∀ i, getShard sm key = .ok i →
          (DeleteTraced sm key).1 = [LockEvent.lock i, LockEvent.unlock i] := by
  unfold DeleteTraced
  cases hk : getShard sm key with
  | error e => exact ⟨OneAtATime_nil, fun i h => by cases h⟩
  | ok j =>
    refine ⟨OneAtATime_exclusive_pair j [] OneAtATime_nil, ?_⟩
    intro i h
    cases h
    rfl

theorem GetTraced_events [Inhabited V] (sm : ShardingMap K V) (key : K) :
    OneAtATime (GetTraced sm key).1
      ∧ ∀ i, getShard sm key = .ok i →
          (GetTraced sm key).1 = [LockEvent.rLock i, LockEvent.rUnlock i] := by
  unfold GetTraced
  cases hk : getShard sm key with
  | error e => exact ⟨OneAtATime_nil, fun i h => by cases h⟩
  | ok j =>
    have hlt := getShard_lt hk
    simp only [List.getElem?_eq_getElem hlt]
    refine ⟨OneAtATime_shared_pair j [] OneAtATime_nil, ?_⟩
    intro i h
    cases h
    rfl

end Locks

/-! ## The properties of the specification -/

section Claims

variable {K V : Type} [DecidableEq K]

/-- C1 (as amended). Round trip: for every container built by `New` (in any state reached by
`Set` and `Delete` calls), every value `v` and every key `k` whose shard index
`shardingFunc(k) % shardCount` is not negative, `Set(k, v)` returns and `Get(k)` then
returns `(v, true)`. -/
theorem C1_set_then_get [Inhabited V] (render : K → List (Fin 256)) (sm : ShardingMap K V)
    (k : K) (v : V) (hr : Reachable render sm)
    (hidx : 0 ≤ Int.tmod (sm.shardingFunc k) sm.shardCount) :
    ∃ sm', Set sm k v = .ok sm' ∧ Get sm' k = .ok (v, true) := by
  obtain ⟨opts, ops, rfl⟩ := hr
  have hk := getShard_of_Inv (Inv_reachable render opts ops) hidx
  have hset : ∃ sm', Set (runOps (New render (opts.map OptSpec.toOpt)) ops) k v = .ok sm' := by
    rw [Set_eq, hk]
    exact ⟨_, rfl⟩
  obtain ⟨sm', hs⟩ := hset
  exact ⟨sm', hs, Get_Set_self hs⟩

/-- C1 witness: the sample container, key 6 (index 6 % 4 = 2), value 100. -/
theorem C1_set_then_get_witness :
    ∃ sm', Set sampleMap 6 100 = .ok sm' ∧ Get sm' 6 = .ok (100, true) :=
  C1_set_then_get (fun _ => []) sampleMap 6 100 sampleMap_reachable (by decide)

/-- C1 as stated fails: with a routing function that returns -1 the index is -1 % 16 = -1,
`Set` panics in `getShard`, and no `Get` returns the value. -/
theorem C1_counterexample :
    Set negativeMap 0 7 = .error .indexOutOfRange
    ∧ ¬ ∃ sm', Set negativeMap 0 7 = .ok sm' ∧ Get sm' 0 = .ok (7, true) := by
  have h : Set negativeMap 0 7 = .error .indexOutOfRange := rfl
  refine ⟨h, ?_⟩
  rintro ⟨sm', h1, _⟩
  rw [h] at h1
  cases h1

/-- C2. Persistence across other keys: for distinct keys `k` and `k2`, the result of `Get(k)`
is the same before and after `Set(k2, v2)` and before and after `Delete(k2)`, whatever shard
the two keys are routed to; and a value stored by `Set(k, v)` is read back as `(v, true)`
after any sequence of `Set` and `Delete` calls on keys other than `k`. -/
theorem C2_other_keys [Inhabited V] (sm : ShardingMap K V) (k k2 : K) (v2 : V) (hne : k ≠ k2) :
    Get (settle sm (Set sm k2 v2)) k = Get sm k
    ∧ Get (settle sm (Delete sm k2)) k = Get sm k
    ∧ (∀ (v : V) (sm1 : ShardingMap K V) (ops : List (Op K V)),
        Set sm k v = .ok sm1 → (∀ op ∈ ops, op.key ≠ k) →
          Get (runOps sm1 ops) k = .ok (v, true)) := by
  refine ⟨Get_settle_Set_ne sm v2 hne, Get_settle_Delete_ne sm hne, ?_⟩
  intro v sm1 ops hset hops
  rw [Get_runOps_ne sm1 ops hops]
  exact Get_Set_self hset

/-- C2 witness: keys 1 and 5 of the sample container share shard 1. -/
theorem C2_other_keys_witness :
    (1 : Nat) ≠ 5
    ∧ Get (settle sampleMap (Set sampleMap 5 7)) 1 = Get sampleMap 1
    ∧ Get (settle sampleMap (Delete sampleMap 5)) 1 = Get sampleMap 1 :=
  ⟨by decide, (C2_other_keys sampleMap 1 5 7 (by decide)).1,
    (C2_other_keys sampleMap 1 5 7 (by decide)).2.1⟩

/-- C3 (as amended). Overwrite, last write wins: for every container, values `v1`, `v2` and
every key `k` whose shard index `shardingFunc(k) % shardCount` is not negative, `Set(k, v1)`
followed by `Set(k, v2)` both return, `Get(k)` then returns `(v2, true)`, and `Len` is the
same as after the first `Set` alone. -/
theorem C3_overwrite [Inhabited V] (render : K → List (Fin 256)) (sm : ShardingMap K V)
    (k : K) (v1 v2 : V) (hr : Reachable render sm)
    (hidx : 0 ≤ Int.tmod (sm.shardingFunc k) sm.shardCount) :
    ∃ sm1 sm2, Set sm k v1 = .ok sm1 ∧ Set sm1 k v2 = .ok sm2
      ∧ Get sm2 k = .ok (v2, true) ∧ Len sm2 = Len sm1 := by
  obtain ⟨opts, ops, rfl⟩ := hr
  exact overwrite_of_getShard v1 v2 (getShard_of_Inv (Inv_reachable render opts ops) hidx)

/-- C3 witness: key 5 of the sample container is overwritten twice. -/
theorem C3_overwrite_witness :
    ∃ sm1 sm2, Set sampleMap 5 1 = .ok sm1 ∧ Set sm1 5 2 = .ok sm2
      ∧ Get sm2 5 = .ok (2, true) ∧ Len sm2 = Len sm1 :=
  C3_overwrite (fun _ => []) sampleMap 5 1 2 sampleMap_reachable (by decide)

/-- C3 as stated fails: with a routing function that returns -1 the first `Set` panics, so
there is no state in which `Get` returns the second value. -/
theorem C3_counterexample :
    Set negativeMap 3 1 = .error .indexOutOfRange
    ∧ ¬ ∃ sm1 sm2, Set negativeMap 3 1 = .ok sm1 ∧ Set sm1 3 2 = .ok sm2
        ∧ Get sm2 3 = .ok (2, true) ∧ Len sm2 = Len sm1 := by
  have h : Set negativeMap 3 1 = .error .indexOutOfRange := rfl
  refine ⟨h, ?_⟩
  rintro ⟨sm1, sm2, h1, _⟩
  rw [h] at h1
  cases h1

/-- C4 (as amended). Delete then Get: for every container and every key `k` whose shard index
`shardingFunc(k) % shardCount` is not negative, whether or not `k` was present, `Delete(k)`
returns and `Get(k)` then returns the zero value and `false`. -/
theorem C4_delete_then_get [Inhabited V] (render : K → List (Fin 256)) (sm : ShardingMap K V)
    (k : K) (hr : Reachable render sm)
    (hidx : 0 ≤ Int.tmod (sm.shardingFunc k) sm.shardCount) :
    ∃ sm', Delete sm k = .ok sm' ∧ Get sm' k = .ok (default, false) := by
  obtain ⟨opts, ops, rfl⟩ := hr
  have hk := getShard_of_Inv (Inv_reachable render opts ops) hidx
  have h1 := Delete_of_getShard hk
  exact ⟨_, h1, Get_Delete_self h1⟩

/-- C4 witness: key 5 is present in the sample container. -/
theorem C4_delete_then_get_witness :
    ∃ sm', Delete sampleMap 5 = .ok sm' ∧ Get sm' 5 = .ok (default, false) :=
  C4_delete_then_get (fun _ => []) sampleMap 5 sampleMap_reachable (by decide)

/-- C4 as stated fails: with a routing function that returns -1 both `Delete` and `Get`
panic, in a freshly built container as after the panicking `Delete`. -/
theorem C4_counterexample :
    Delete negativeMap 0 = .error .indexOutOfRange
    ∧ Get negativeMap 0 = .error .indexOutOfRange
    ∧ Get (settle negativeMap (Delete negativeMap 0)) 0 ≠ .ok (default, false) := by
  refine ⟨rfl, rfl, ?_⟩
  intro h
  have h2 : Get (settle negativeMap (Delete negativeMap 0)) 0 = .error .indexOutOfRange := rfl
  rw [h2] at h
  cases h

/-- C5. Count consistency: for a container obtained from `New` by a finite sequential history
of `Set` and `Delete` calls, `Len()` is the number of elements of the set of keys for which
`Get` reports `true`; these are the keys with a valid shard index whose last call in the
history is a `Set` (inserted and not deleted since). -/
theorem C5_len_counts_keys [Inhabited V] (render : K → List (Fin 256)) (sm : ShardingMap K V)
    (opts : List (OptSpec K)) (ops : List (Op K V))
    (hsm : sm = runOps (New render (opts.map OptSpec.toOpt)) ops) :
    ∃ present : Finset K,
      (∀ k, k ∈ present ↔ ∃ v, Get sm k = .ok (v, true))
      ∧ (∀ k, k ∈ present ↔
          (0 ≤ Int.tmod (sm.shardingFunc k) sm.shardCount ∧ ∃ v, lastValue ops k = some v))
      ∧ Len sm = (present.card : Int) := by
  subst hsm
  have hinv := @Inv_reachable K V _ render opts ops
  have hmem : ∀ k, k ∈ ((entries (runOps (New render (opts.map OptSpec.toOpt)) ops)).map
      Prod.fst).toFinset ↔
        ∃ v, Get (runOps (New render (opts.map OptSpec.toOpt)) ops) k = .ok (v, true) := by
    intro k
    rw [List.mem_toFinset]
    exact mem_entries_keys_iff hinv k
  refine ⟨_, hmem, ?_, ?_⟩
  · intro k
    rw [hmem]
    constructor
    · rintro ⟨v, hv⟩
      have := (Get_reachable_iff render opts ops k v).1 hv
      exact ⟨this.1, v, this.2⟩
    · rintro ⟨hidx, v, hv⟩
      exact ⟨v, (Get_reachable_iff render opts ops k v).2 ⟨hidx, hv⟩⟩
  · rw [Len_eq_length, List.toFinset_card_of_nodup (entries_keys_nodup hinv)]
    simp

/-- C5 witness: the sample container, built by three `Set` calls on three keys. -/
theorem C5_len_counts_keys_witness :
    ∃ present : Finset Nat,
      (∀ k, k ∈ present ↔ ∃ v, Get sampleMap k = .ok (v, true))
      ∧ (∀ k, k ∈ present ↔
          (0 ≤ Int.tmod (sampleMap.shardingFunc k) sampleMap.shardCount
            ∧ ∃ v, lastValue [Op.set 1 10, Op.set 5 50, Op.set 2 (20 : Int)] k = some v))
      ∧ Len sampleMap = (present.card : Int) :=
  C5_len_counts_keys (fun _ => []) sampleMap
    [OptSpec.shardCount 4, OptSpec.shardingFunc (some (fun k : Nat => (k : Int)))]
    [Op.set 1 10, Op.set 5 50, Op.set 2 20] rfl

/-- C6. ForEach visits every stored pair exactly once: for a container reached from `New` by
`Set` and `Delete` calls and any enumeration order of the shard maps, the effect of `ForEach`
is that of calling the visitor on the logged calls in turn; no key is visited twice; a pair
`(k, v)` is visited exactly when `Get(k)` returns `(v, true)`; the number of calls is `Len()`;
and the sum of the visited values (weighed by `w`, the identity for integer values) is the
sum of the stored values over the present keys. -/
theorem C6_forEach_visits [Inhabited V] (render : K → List (Fin 256)) (sm : ShardingMap K V)
    (order : List (K × V) → List (K × V)) (hr : Reachable render sm)
    (horder : ∀ m, List.Perm (order m) m) :
    (∀ (σ : Type) (f : K → V → σ → σ) (s : σ),
        ForEach order sm f s = (visits order sm).foldl (fun s e => f e.1 e.2 s) s)
    ∧ ((visits order sm).map Prod.fst).Nodup
    ∧ (∀ k v, (k, v) ∈ visits order sm ↔ Get sm k = .ok (v, true))
    ∧ ((visits order sm).length : Int) = Len sm
    ∧ ∃ present : Finset K,
        (∀ k, k ∈ present ↔ ∃ v, Get sm k = .ok (v, true))
        ∧ ∀ w : V → Int,
            ForEach order sm (fun _ v total => total + w v) 0
              = Finset.sum present (fun k => w (storedValue sm k)) := by
  obtain ⟨opts, ops, rfl⟩ := hr
  have hinv := @Inv_reachable K V _ render opts ops
  have hperm := visits_perm order (runOps (New render (opts.map OptSpec.toOpt)) ops) horder
  have hnodup : ((visits order (runOps (New render (opts.map OptSpec.toOpt)) ops)).map
      Prod.fst).Nodup :=
    ((hperm.map Prod.fst).nodup_iff).2 (entries_keys_nodup hinv)
  have hmem : ∀ k v, (k, v) ∈ visits order (runOps (New render (opts.map OptSpec.toOpt)) ops) ↔
      Get (runOps (New render (opts.map OptSpec.toOpt)) ops) k = .ok (v, true) := by
    intro k v
    rw [hperm.mem_iff]
    exact mem_entries_iff hinv k v
  refine ⟨?_, hnodup, hmem, ?_,
    ⟨((visits order (runOps (New render (opts.map OptSpec.toOpt)) ops)).map
      Prod.fst).toFinset, ?_, ?_⟩⟩
  · intro σ f s
    rw [ForEach_eq_foldl, visits_eq]
  · rw [Len_eq_length, hperm.length_eq]
  · intro k
    rw [List.mem_toFinset, ((hperm.map Prod.fst).mem_iff)]
    exact mem_entries_keys_iff hinv k
  · intro w
    rw [List.sum_toFinset _ hnodup, ForEach_eq_foldl, ← visits_eq, foldl_weights, List.map_map]
    simp only [zero_add]
    congr 1
    apply List.map_congr_left
    intro e he
    obtain ⟨k, v⟩ := e
    simp only [Function.comp]
    rw [storedValue_of_Get ((hmem k v).1 he)]

/-- C6 witness: the sample container, each shard map enumerated back to front. -/
theorem C6_forEach_visits_witness :
    ((visits List.reverse sampleMap).map Prod.fst).Nodup
    ∧ (∀ k v, (k, v) ∈ visits List.reverse sampleMap ↔ Get sampleMap k = .ok (v, true))
    ∧ ((visits List.reverse sampleMap).length : Int) = Len sampleMap :=
  ⟨(C6_forEach_visits (fun _ => []) sampleMap List.reverse sampleMap_reachable
      (fun m => List.reverse_perm m)).2.1,
   (C6_forEach_visits (fun _ => []) sampleMap List.reverse sampleMap_reachable
      (fun m => List.reverse_perm m)).2.2.1,
   (C6_forEach_visits (fun _ => []) sampleMap List.reverse sampleMap_reachable
      (fun m => List.reverse_perm m)).2.2.2.1⟩

/-- C7. Delete of an absent key is a no-op: when `Get(k)` reports `false`, `Delete(k)` returns
and leaves the container as it was: the same shard maps, the same `Len`, the same result of
`Get` for every key. Deleting twice leaves the state that deleting once leaves. -/
theorem C7_delete_absent [Inhabited V] (sm : ShardingMap K V) (k : K) (v : V)
    (habsent : Get sm k = .ok (v, false)) :
    Delete sm k = .ok sm
    ∧ (∀ sm', Delete sm k = .ok sm' →
        sm'.shards = sm.shards ∧ Len sm' = Len sm ∧ ∀ key, Get sm' key = Get sm key)
    ∧ (∀ (sm0 sm1 : ShardingMap K V) (key : K),
        Delete sm0 key = .ok sm1 → Delete sm1 key = .ok sm1) := by
  have h := Delete_absent habsent
  refine ⟨h, ?_, ?_⟩
  · intro sm' h'
    rw [h] at h'
    cases h'
    exact ⟨rfl, rfl, fun _ => rfl⟩
  · intro sm0 sm1 key h0
    exact Delete_absent (Get_Delete_self h0)

/-- C7 witness: key 9 is absent from the sample container. -/
theorem C7_delete_absent_witness :
    Get sampleMap 9 = .ok (0, false) ∧ Delete sampleMap 9 = .ok sampleMap :=
  ⟨rfl, (C7_delete_absent sampleMap 9 0 rfl).1⟩

/-- C8 (as amended). Construction: for every list of options, the shard count of `New(opts...)`
is the count of the last shard-count option whose argument is positive, or 16 when there is
none; it is at least 1; there are exactly that many shards, each with an empty map; `Len()`
is 0; and `Get(k)` returns the zero value and `false` for every key `k` whose shard index
`shardingFunc(k) % shardCount` is not negative. -/
theorem C8_construction [Inhabited V] (render : K → List (Fin 256)) (opts : List (OptSpec K))
    (sm : ShardingMap K V) (hsm : sm = New render (opts.map OptSpec.toOpt)) :
    sm.shardCount = specShardCount opts
    ∧ 1 ≤ sm.shardCount
    ∧ (sm.shards.length : Int) = sm.shardCount
    ∧ (∀ shard ∈ sm.shards, shard.items = [])
    ∧ Len sm = 0
    ∧ (∀ k, 0 ≤ Int.tmod (sm.shardingFunc k) sm.shardCount →
        Get sm k = .ok (default, false)) := by
  subst hsm
  have hinv := @Inv_New K V _ render opts
  refine ⟨?_, hinv.count_pos, hinv.length_eq, ?_, Len_New render _, ?_⟩
  · exact configure_shardCount opts _
  · intro shard hmem
    obtain ⟨i, hi⟩ := List.mem_iff_getElem?.1 hmem
    exact New_getElem? render _ i shard hi
  · intro k hk
    exact Get_New render opts k hk

/-- C8 witness: shard-count options 8, 4, 0 and -3 and a routing function; the shard count
is 4, and key 7 is absent. -/
theorem C8_construction_witness :
    (New (fun _ => [])
        ([OptSpec.shardCount 8, OptSpec.shardCount 4, OptSpec.shardCount 0,
          OptSpec.shardingFunc (some (fun k : Nat => (k : Int))), OptSpec.shardCount (-3)].map
          OptSpec.toOpt) : ShardingMap Nat Int).shardCount = 4
    ∧ Get (New (fun _ => [])
        ([OptSpec.shardCount 8, OptSpec.shardCount 4, OptSpec.shardCount 0,
          OptSpec.shardingFunc (some (fun k : Nat => (k : Int))), OptSpec.shardCount (-3)].map
          OptSpec.toOpt) : ShardingMap Nat Int) 7 = .ok (0, false) :=
  ⟨(C8_construction (fun _ => [])
      [OptSpec.shardCount 8, OptSpec.shardCount 4, OptSpec.shardCount 0,
        OptSpec.shardingFunc (some (fun k : Nat => (k : Int))), OptSpec.shardCount (-3)]
      _ rfl).1.trans (by decide),
   (C8_construction (fun _ => [])
      [OptSpec.shardCount 8, OptSpec.shardCount 4, OptSpec.shardCount 0,
        OptSpec.shardingFunc (some (fun k : Nat => (k : Int))), OptSpec.shardCount (-3)]
      _ rfl).2.2.2.2.2 7 (by decide)⟩

/-- C8 as stated fails in its last part: in the freshly built container whose routing
function returns -1, `Get` panics instead of returning the zero value and `false`. -/
theorem C8_counterexample :
    Get negativeMap 5 = .error .indexOutOfRange
    ∧ Get negativeMap 5 ≠ .ok (default, false) := by
  have h : Get negativeMap 5 = .error .indexOutOfRange := rfl
  refine ⟨h, ?_⟩
  rw [h]
  intro h2
  cases h2

/-- C9. Routing-function option: the routing function of `New(opts...)` is the function of the
last routing-function option whose argument is not nil, or the default FNV-based function
when there is none; `WithShardingFunc(nil)` changes nothing; `WithShardingFunc(f)` installs
`f`; and `WithShardCount` never changes the routing function. -/
theorem C9_routing_option (render : K → List (Fin 256)) (opts : List (OptSpec K)) :
    (New render (opts.map OptSpec.toOpt) : ShardingMap K V).shardingFunc
        = specShardingFunc render opts
    ∧ (∀ sm0 : ShardingMap K V, WithShardingFunc none sm0 = sm0)
    ∧ (∀ (f : K → Int) (sm0 : ShardingMap K V), (WithShardingFunc (some f) sm0).shardingFunc = f)
    ∧ (∀ (count : Int) (sm0 : ShardingMap K V),
        (WithShardCount count sm0).shardingFunc = sm0.shardingFunc) := by
  refine ⟨?_, fun _ => rfl, fun _ _ => rfl, ?_⟩
  · exact configure_shardingFunc opts _
  · intro count sm0
    unfold WithShardCount
    split <;> rfl

/-- C10. Key-routed operations never fail on a non-negative routing value: in a container built
by `New` from options (and in any state reached from it by `Set` and `Delete` calls), for a
key `k` with `shardingFunc(k) >= 0` the index `shardingFunc(k) % shardCount` is at least 0,
below `shardCount` and a valid position of `shards`; `getShard` returns it, and `Set`, `Get`
and `Delete` return without a panic. -/
theorem C10_routing_in_range [Inhabited V] (render : K → List (Fin 256)) (sm : ShardingMap K V)
    (k : K) (hr : Reachable render sm) (hnonneg : 0 ≤ sm.shardingFunc k) :
    0 ≤ Int.tmod (sm.shardingFunc k) sm.shardCount
    ∧ Int.tmod (sm.shardingFunc k) sm.shardCount < sm.shardCount
    ∧ (Int.tmod (sm.shardingFunc k) sm.shardCount).toNat < sm.shards.length
    ∧ getShard sm k = .ok (Int.tmod (sm.shardingFunc k) sm.shardCount).toNat
    ∧ (∀ v : V, ∃ sm', Set sm k v = .ok sm')
    ∧ (∃ r, Get sm k = .ok r)
    ∧ (∃ sm', Delete sm k = .ok sm') := by
  obtain ⟨opts, ops, rfl⟩ := hr
  have hinv := @Inv_reachable K V _ render opts ops
  have hidx := Int.tmod_nonneg
    (runOps (New render (opts.map OptSpec.toOpt)) ops : ShardingMap K V).shardCount hnonneg
  have hk := getShard_of_Inv hinv hidx
  have hlt := getShard_lt hk
  refine ⟨hidx, Int.tmod_lt_of_pos _ hinv.count_pos, hlt, hk, ?_, ?_, ?_⟩
  · intro v
    exact ⟨_, Set_of_getShard v hk⟩
  · unfold Get
    rw [hk]
    simp only [List.getElem?_eq_getElem hlt]
    exact ⟨_, rfl⟩
  · exact ⟨_, Delete_of_getShard hk⟩

/-- C10 witness: key 7 of the sample container has routing value 7 and index 3. -/
theorem C10_routing_in_range_witness :
    (0 : Int) ≤ sampleMap.shardingFunc 7
    ∧ getShard sampleMap 7 = .ok 3
    ∧ (∃ r, Get sampleMap 7 = .ok r) :=
  ⟨by decide,
   (C10_routing_in_range (fun _ => []) sampleMap 7 sampleMap_reachable (by decide)).2.2.2.1,
   (C10_routing_in_range (fun _ => []) sampleMap 7 sampleMap_reachable (by decide)).2.2.2.2.2.1⟩

/-- C11 (as amended). Distribution: in a container with shard count above 1, two keys `k1`,
`k2` whose shard indices `shardingFunc(k) % shardCount` are not negative and differ are
stored by `Set` in two different shards: after both calls each key is found in the shard at
its own index and not in the shard of the other key. In the scenario with shard count 4 and
the key length as routing function, the keys of lengths 1, 2, 3, 4, 5 are routed to the
indices 1, 2, 3, 0, 1: at least 2 different indices. -/
theorem C11_distribution [Inhabited V] (render : K → List (Fin 256)) (sm : ShardingMap K V)
    (k1 k2 : K) (v1 v2 : V) (hr : Reachable render sm) (hcount : 1 < sm.shardCount)
    (h1 : 0 ≤ Int.tmod (sm.shardingFunc k1) sm.shardCount)
    (h2 : 0 ≤ Int.tmod (sm.shardingFunc k2) sm.shardCount)
    (hne : Int.tmod (sm.shardingFunc k1) sm.shardCount
      ≠ Int.tmod (sm.shardingFunc k2) sm.shardCount) :
    (∃ (sm1 sm2 : ShardingMap K V) (i1 i2 : Nat) (s1 s2 : Shard K V),
      Set sm k1 v1 = .ok sm1 ∧ Set sm1 k2 v2 = .ok sm2
      ∧ (i1 : Int) = Int.tmod (sm.shardingFunc k1) sm.shardCount
      ∧ (i2 : Int) = Int.tmod (sm.shardingFunc k2) sm.shardCount
      ∧ i1 ≠ i2
      ∧ sm2.shards[i1]? = some s1 ∧ sm2.shards[i2]? = some s2
      ∧ (k1, v1) ∈ s1.items ∧ (k2, v2) ∈ s2.items
      ∧ k1 ∉ s2.items.map Prod.fst ∧ k2 ∉ s1.items.map Prod.fst)
    ∧ (["a", "bb", "ccc", "dddd", "eeeee"].map (fun key => getShard lengthMap key)
        = [.ok 1, .ok 2, .ok 3, .ok 0, .ok 1]
      ∧ 2 ≤ ((["a", "bb", "ccc", "dddd", "eeeee"].map
          (fun key => Int.tmod (lengthMap.shardingFunc key) lengthMap.shardCount)).dedup).length)
    := by
  obtain ⟨opts, ops, rfl⟩ := hr
  have hinv := @Inv_reachable K V _ render opts ops
  have g1 := getShard_of_Inv hinv h1
  have g2 := getShard_of_Inv hinv h2
  have hidx : (Int.tmod ((runOps (New render (opts.map OptSpec.toOpt)) ops).shardingFunc k1)
        (runOps (New render (opts.map OptSpec.toOpt)) ops).shardCount).toNat
      ≠ (Int.tmod ((runOps (New render (opts.map OptSpec.toOpt)) ops).shardingFunc k2)
        (runOps (New render (opts.map OptSpec.toOpt)) ops).shardCount).toNat := by
    omega
  obtain ⟨sm1, sm2, s1, s2, a1, a2, a3, a4, a5, a6, a7, a8⟩ :=
    two_keys_two_shards hinv k1 k2 v1 v2 g1 g2 hidx
  refine ⟨⟨sm1, sm2, _, _, s1, s2, a1, a2, ?_, ?_, hidx, a3, a4, a5, a6, a7, a8⟩, rfl, ?_⟩
  · omega
  · omega
  · decide

/-- C11 witness: keys 1 and 2 of the sample container have the indices 1 and 2. -/
theorem C11_distribution_witness :
    ∃ (sm1 sm2 : ShardingMap Nat Int) (i1 i2 : Nat) (s1 s2 : Shard Nat Int),
      Set sampleMap 1 7 = .ok sm1 ∧ Set sm1 2 8 = .ok sm2
      ∧ (i1 : Int) = Int.tmod (sampleMap.shardingFunc 1) sampleMap.shardCount
      ∧ (i2 : Int) = Int.tmod (sampleMap.shardingFunc 2) sampleMap.shardCount
      ∧ i1 ≠ i2
      ∧ sm2.shards[i1]? = some s1 ∧ sm2.shards[i2]? = some s2
      ∧ (1, 7) ∈ s1.items ∧ (2, 8) ∈ s2.items
      ∧ 1 ∉ s2.items.map Prod.fst ∧ 2 ∉ s1.items.map Prod.fst :=
  (C11_distribution (fun _ => []) sampleMap 1 2 7 8 sampleMap_reachable (by decide)
    (by decide) (by decide) (by decide)).1

/-- C11 as stated fails: in the four-shard container routed by the key minus one, the keys 0
and 1 have the different indices -1 and 0, yet `Set` panics on key 0, which is stored in no
shard. -/
theorem C11_counterexample :
    1 < shiftedMap.shardCount
    ∧ Int.tmod (shiftedMap.shardingFunc 0) shiftedMap.shardCount
        ≠ Int.tmod (shiftedMap.shardingFunc 1) shiftedMap.shardCount
    ∧ Set shiftedMap 0 7 = .error .indexOutOfRange
    ∧ ¬ ∃ sm1, Set shiftedMap 0 7 = .ok sm1 := by
  have h : Set shiftedMap 0 7 = .error .indexOutOfRange := rfl
  refine ⟨by decide, by decide, h, ?_⟩
  rintro ⟨sm1, h1⟩
  rw [h] at h1
  cases h1

/-- C13. Exactly-one-shard invariant: in every container reachable from `New` by `Set` and
`Delete` calls, every key stored in the shard at position `i` has
`shardingFunc(key) % shardCount = i`; no key is stored in two shards at once, nor twice in one
shard; and a key found in shard `i` is never found in another shard later in the history.
The routing values need not be non-negative for this: a key with a negative index is never
stored. -/
theorem C13_exactly_one_shard (render : K → List (Fin 256)) (sm : ShardingMap K V)
    (hr : Reachable render sm) :
    (∀ (i : Nat) (shard : Shard K V), sm.shards[i]? = some shard → ∀ e ∈ shard.items,
        Int.tmod (sm.shardingFunc e.1) sm.shardCount = (i : Int))
    ∧ (∀ (i j : Nat) (si sj : Shard K V) (key : K),
        sm.shards[i]? = some si → sm.shards[j]? = some sj →
        key ∈ si.items.map Prod.fst → key ∈ sj.items.map Prod.fst → i = j)
    ∧ (∀ (i : Nat) (shard : Shard K V), sm.shards[i]? = some shard →
        (shard.items.map Prod.fst).Nodup)
    ∧ (∀ (ops : List (Op K V)) (i j : Nat) (si sj : Shard K V) (key : K),
        sm.shards[i]? = some si → (runOps sm ops).shards[j]? = some sj →
        key ∈ si.items.map Prod.fst → key ∈ sj.items.map Prod.fst → i = j) := by
  obtain ⟨opts, ops0, rfl⟩ := hr
  have hinv := @Inv_reachable K V _ render opts ops0
  have key_index : ∀ (s : ShardingMap K V), Inv s → ∀ (i : Nat) (shard : Shard K V) (key : K),
      s.shards[i]? = some shard → key ∈ shard.items.map Prod.fst →
      Int.tmod (s.shardingFunc key) s.shardCount = (i : Int) := by
    intro s hs i shard key hi hmem
    obtain ⟨e, he, rfl⟩ := List.mem_map.1 hmem
    exact (getShard_index (hs.routed i shard hi e he)).symm
  refine ⟨?_, ?_, hinv.nodup, ?_⟩
  · intro i shard hi e he
    exact key_index _ hinv i shard e.1 hi (List.mem_map_of_mem Prod.fst he)
  · intro i j si sj key hi hj hki hkj
    have h1 := key_index _ hinv i si key hi hki
    have h2 := key_index _ hinv j sj key hj hkj
    omega
  · intro ops i j si sj key hi hj hki hkj
    have hinv2 := Inv_runOps hinv ops
    obtain ⟨c1, c2, _⟩ := runOps_config (runOps (New render (opts.map OptSpec.toOpt)) ops0) ops
    have h1 := key_index _ hinv i si key hi hki
    have h2 := key_index _ hinv2 j sj key hj hkj
    rw [c1, c2] at h2
    omega

/-- C13 witness: in the sample container the keys 1 and 5 sit in shard 1, and 5 % 4 = 1. -/
theorem C13_exactly_one_shard_witness :
    sampleMap.shards[1]? = some { items := [(1, 10), (5, 50)] }
    ∧ Int.tmod (sampleMap.shardingFunc 5) sampleMap.shardCount = ((1 : Nat) : Int) :=
  ⟨rfl, (C13_exactly_one_shard (fun _ => []) sampleMap sampleMap_reachable).1 1
    { items := [(1, 10), (5, 50)] } rfl (5, 50) (by simp)⟩

/-- C14. The default routing function is 32-bit FNV-1a: for every key, `defaultShardingFunc`
is the value obtained from the offset basis 2166136261 by replacing, for each byte `b` of the
rendering of the key in order, the accumulator `h` by `((h xor b) * 16777619) mod 2^32`; the
conversion to the 64-bit `int` keeps the value, which lies in `[0, 2^32)`; the empty rendering
gives 2166136261 and the rendering "a" (the byte 97) gives 0xE40C292C. -/
theorem C14_default_is_fnv1a {Key : Type} (render : Key → List (Fin 256)) (key : Key) :
    defaultShardingFunc render key = ((fnv1a32 (render key) : Nat) : Int)
    ∧ defaultShardingFunc render key = toInt64 (fnv1a32 (render key))
    ∧ 0 ≤ defaultShardingFunc render key
    ∧ defaultShardingFunc render key < 2 ^ 32
    ∧ (render key = [] → defaultShardingFunc render key = 2166136261)
    ∧ (render key = [97] → defaultShardingFunc render key = 0xE40C292C) := by
  have heq := defaultShardingFunc_eq render key
  have hlt := fnv1a32_lt (render key)
  refine ⟨heq, ?_, ?_, ?_, ?_, ?_⟩
  · rw [heq, toInt64_of_lt _ hlt]
  · rw [heq]
    exact Int.ofNat_nonneg _
  · rw [heq]
    exact_mod_cast hlt
  · intro h
    rw [heq, h]
    rfl
  · intro h
    rw [heq, h]
    rfl

/-- C14 witness: keys rendered as the single byte 97, then as nothing. -/
theorem C14_default_is_fnv1a_witness :
    defaultShardingFunc (fun _ : Nat => [97]) 0 = 0xE40C292C
    ∧ defaultShardingFunc (fun _ : Nat => []) 0 = 2166136261 :=
  ⟨(C14_default_is_fnv1a (fun _ : Nat => [97]) 0).2.2.2.2.2 rfl,
   (C14_default_is_fnv1a (fun _ : Nat => []) 0).2.2.2.2.1 rfl⟩

/-- C15. Configuration is fixed after construction: every call (`Set`, `Get`, `Delete`, `Len`,
`ForEach`), and so every finite sequence of calls, leaves the shard count, the length of the
shard sequence and the routing function as they were; hence for every key the shard index
`shardingFunc(k) % shardCount`, and the outcome of `getShard`, are the same before and
after. -/
theorem C15_configuration_fixed [Inhabited V] {σ : Type} (order : List (K × V) → List (K × V))
    (sm : ShardingMap K V) :
    (∀ call : Call K V σ,
        (call.exec order sm).1.shardCount = sm.shardCount
        ∧ (call.exec order sm).1.shards.length = sm.shards.length
        ∧ (call.exec order sm).1.shardingFunc = sm.shardingFunc)
    ∧ (∀ calls : List (Call K V σ),
        (runCalls order sm calls).1.shardCount = sm.shardCount
        ∧ (runCalls order sm calls).1.shards.length = sm.shards.length
        ∧ (runCalls order sm calls).1.shardingFunc = sm.shardingFunc
        ∧ ∀ k : K,
            Int.tmod ((runCalls order sm calls).1.shardingFunc k)
                (runCalls order sm calls).1.shardCount
              = Int.tmod (sm.shardingFunc k) sm.shardCount
            ∧ getShard (runCalls order sm calls).1 k = getShard sm k) := by
  constructor
  · intro call
    obtain ⟨h1, h2, h3⟩ := exec_config order sm call
    exact ⟨h1, h3, h2⟩
  · intro calls
    obtain ⟨h1, h2, h3⟩ := runCalls_config order sm calls
    refine ⟨h1, h3, h2, ?_⟩
    intro k
    exact ⟨by rw [h1, h2], getShard_congr h1 h2 h3 k⟩

/-- C16. Lock discipline: in the sequence of lock calls that a single operation makes, at most
one shard lock is held at any moment and none is held at the return. `Set` and `Delete` take
exactly the exclusive lock of the routed shard (`Lock`, then `Unlock`), `Get` takes exactly
its shared lock (`RLock`, then `RUnlock`), and `Len` and `ForEach` take and release the
shared lock of the shards 0, 1, ..., shardCount-1 one after another in storage order. The
operations with their lock calls return what the operations return. -/
theorem C16_lock_discipline [Inhabited V] {σ : Type} (render : K → List (Fin 256))
    (order : List (K × V) → List (K × V)) (sm : ShardingMap K V) (hr : Reachable render sm) :
    (∀ (k : K) (v : V),
        (SetTraced sm k v).2 = Set sm k v ∧ OneAtATime (SetTraced sm k v).1
        ∧ ∀ i, getShard sm k = .ok i →
            (SetTraced sm k v).1 = [LockEvent.lock i, LockEvent.unlock i])
    ∧ (∀ k : K,
        (DeleteTraced sm k).2 = Delete sm k ∧ OneAtATime (DeleteTraced sm k).1
        ∧ ∀ i, getShard sm k = .ok i →
            (DeleteTraced sm k).1 = [LockEvent.lock i, LockEvent.unlock i])
    ∧ (∀ k : K,
        (GetTraced sm k).2 = Get sm k ∧ OneAtATime (GetTraced sm k).1
        ∧ ∀ i, getShard sm k = .ok i →
            (GetTraced sm k).1 = [LockEvent.rLock i, LockEvent.rUnlock i])
    ∧ ((LenTraced sm).2 = Len sm ∧ OneAtATime (LenTraced sm).1
        ∧ (LenTraced sm).1 = (List.range sm.shardCount.toNat).flatMap
            (fun i => [LockEvent.rLock i, LockEvent.rUnlock i]))
    ∧ (∀ (f : K → V → σ → σ) (s : σ),
        (ForEachTraced order sm f s).2 = ForEach order sm f s
        ∧ OneAtATime (ForEachTraced order sm f s).1
        ∧ (ForEachTraced order sm f s).1 = (List.range sm.shardCount.toNat).flatMap
            (fun i => [LockEvent.rLock i, LockEvent.rUnlock i])) := by
  obtain ⟨opts, ops, rfl⟩ := hr
  have hinv := @Inv_reachable K V _ render opts ops
  have hlen : (runOps (New render (opts.map OptSpec.toOpt)) ops).shards.length
      = (runOps (New render (opts.map OptSpec.toOpt)) ops : ShardingMap K V).shardCount.toNat := by
    have := hinv.length_eq
    omega
  refine ⟨?_, ?_, ?_, ?_, ?_⟩
  · intro k v
    exact ⟨SetTraced_result _ k v, SetTraced_events _ k v⟩
  · intro k
    exact ⟨DeleteTraced_result _ k, DeleteTraced_events _ k⟩
  · intro k
    exact ⟨GetTraced_result _ k, GetTraced_events _ k⟩
  · rw [LenTraced_eq, ← hlen]
    exact ⟨rfl, OneAtATime_sharedPass _, rfl⟩
  · intro f s
    rw [ForEachTraced_eq, ← hlen]
    exact ⟨rfl, OneAtATime_sharedPass _, rfl⟩

/-- C16 witness: the sample container; key 5 is routed to shard 1 and there are 4 shards. -/
theorem C16_lock_discipline_witness :
    (SetTraced sampleMap 5 7).1 = [LockEvent.lock 1, LockEvent.unlock 1]
    ∧ (GetTraced sampleMap 5).1 = [LockEvent.rLock 1, LockEvent.rUnlock 1]
    ∧ (LenTraced sampleMap).1
        = [LockEvent.rLock 0, LockEvent.rUnlock 0, LockEvent.rLock 1, LockEvent.rUnlock 1,
           LockEvent.rLock 2, LockEvent.rUnlock 2, LockEvent.rLock 3, LockEvent.rUnlock 3]
    ∧ OneAtATime (LenTraced sampleMap).1 :=
  ⟨(@C16_lock_discipline Nat Int _ _ Unit (fun _ => []) id sampleMap sampleMap_reachable).1
      5 7 |>.2.2 1 rfl,
   (@C16_lock_discipline Nat Int _ _ Unit (fun _ => []) id sampleMap sampleMap_reachable).2.2.1
      5 |>.2.2 1 rfl,
   (@C16_lock_discipline Nat Int _ _ Unit (fun _ => []) id sampleMap
      sampleMap_reachable).2.2.2.1.2.2,
   (@C16_lock_discipline Nat Int _ _ Unit (fun _ => []) id sampleMap
      sampleMap_reachable).2.2.2.1.2.1⟩

/-- C17. Sharding is transparent: for a container built by `New` (any shard count, which is
at least 1, and any routing function, default or custom) whose routing values are
non-negative, and for every finite sequential history of `Set`, `Delete`, `Get` and `Len`
calls, the results the sharded container returns are, call by call, the results that a single
unsharded key-value map returns on the same history; so two such containers that differ in
shard count or routing function return the same results. -/
theorem C17_refines_plain_map [Inhabited V] {σ : Type} (render : K → List (Fin 256))
    (order : List (K × V) → List (K × V)) (opts : List (OptSpec K))
    (calls : List (Call K V σ))
    (hnonneg : ∀ k, 0 ≤ (New render (opts.map OptSpec.toOpt) : ShardingMap K V).shardingFunc k)
    (hcalls : ∀ call ∈ calls, call.isForEach = false) :
    (runCalls order (New render (opts.map OptSpec.toOpt)) calls).2
        = (runPlain order [] calls).2
    ∧ ∀ (render2 : K → List (Fin 256)) (opts2 : List (OptSpec K)),
        (∀ k, 0 ≤ (New render2 (opts2.map OptSpec.toOpt) : ShardingMap K V).shardingFunc k) →
        (runCalls order (New render2 (opts2.map OptSpec.toOpt)) calls).2
          = (runCalls order (New render (opts.map OptSpec.toOpt)) calls).2 := by
  have h1 := Sim_run order (Sim_New render opts hnonneg) calls hcalls
  refine ⟨h1, ?_⟩
  intro render2 opts2 hnonneg2
  rw [h1]
  exact Sim_run order (Sim_New render2 opts2 hnonneg2) calls hcalls

/-- C17 witness: four shards routed by the key itself against one unsharded map; keys 1 and 5
share a shard. -/
theorem C17_refines_plain_map_witness :
    (runCalls List.reverse
        (New (fun _ => [])
          ([OptSpec.shardCount 4, OptSpec.shardingFunc (some (fun k : Nat => (k : Int)))].map
            OptSpec.toOpt) : ShardingMap Nat Int)
        ([Call.set 1 10, Call.get 1, Call.set 5 50, Call.len, Call.delete 1, Call.get 1,
          Call.len] : List (Call Nat Int Unit))).2
      = (runPlain List.reverse []
        ([Call.set 1 10, Call.get 1, Call.set 5 50, Call.len, Call.delete 1, Call.get 1,
          Call.len] : List (Call Nat Int Unit))).2 :=
  (C17_refines_plain_map (fun _ => []) List.reverse
    [OptSpec.shardCount 4, OptSpec.shardingFunc (some (fun k : Nat => (k : Int)))]
    [Call.set 1 10, Call.get 1, Call.set 5 50, Call.len, Call.delete 1, Call.get 1, Call.len]
    (fun k => Int.ofNat_nonneg k)
    (by
      intro call hcall
      simp only [List.mem_cons, List.mem_singleton, List.not_mem_nil, or_false] at hcall
      rcases hcall with h | h | h | h | h | h | h <;> rw [h] <;> rfl)).1

/-- C18. Negative routing values are not reduced into range: for a key `k` with
`shardingFunc(k) < 0` that is not a multiple of `shardCount`, the index
`shardingFunc(k) % shardCount` lies strictly between `-shardCount` and 0, `getShard` panics
with index out of range, and so do `Set(k, v)`, `Get(k)` and `Delete(k)`: nothing validates
or normalises the routing value. -/
theorem C18_negative_routing [Inhabited V] (render : K → List (Fin 256)) (sm : ShardingMap K V)
    (k : K) (hr : Reachable render sm) (hneg : sm.shardingFunc k < 0)
    (hmul : ¬ sm.shardCount ∣ sm.shardingFunc k) :
    -sm.shardCount < Int.tmod (sm.shardingFunc k) sm.shardCount
    ∧ Int.tmod (sm.shardingFunc k) sm.shardCount < 0
    ∧ getShard sm k = .error .indexOutOfRange
    ∧ (∀ v : V, Set sm k v = .error .indexOutOfRange)
    ∧ Get sm k = .error .indexOutOfRange
    ∧ Delete sm k = .error .indexOutOfRange := by
  obtain ⟨opts, ops, rfl⟩ := hr
  have hinv := @Inv_reachable K V _ render opts ops
  have hrange := tmod_neg_range hneg hinv.count_pos hmul
  have hk := getShard_of_neg hinv.count_pos hrange.2
  refine ⟨hrange.1, hrange.2, hk, ?_, ?_, ?_⟩
  · intro v
    rw [Set_eq, hk]
  · unfold Get
    rw [hk]
  · rw [Delete_eq, hk]

/-- C18 witness: the container routed by the constant -1, with 16 shards. -/
theorem C18_negative_routing_witness :
    negativeMap.shardingFunc 3 < 0
    ∧ Int.tmod (negativeMap.shardingFunc 3) negativeMap.shardCount < 0
    ∧ (∀ v : Int, Set negativeMap 3 v = .error .indexOutOfRange)
    ∧ Get negativeMap 3 = .error .indexOutOfRange
    ∧ Delete negativeMap 3 = .error .indexOutOfRange :=
  ⟨by decide,
   (C18_negative_routing (fun _ => []) negativeMap 3 negativeMap_reachable (by decide)
      (by decide)).2.1,
   (C18_negative_routing (fun _ => []) negativeMap 3 negativeMap_reachable (by decide)
      (by decide)).2.2.2.1,
   (C18_negative_routing (fun _ => []) negativeMap 3 negativeMap_reachable (by decide)
      (by decide)).2.2.2.2.1,
   (C18_negative_routing (fun _ => []) negativeMap 3 negativeMap_reachable (by decide)
      (by decide)).2.2.2.2.2⟩

/-- C19. Len changes by exactly one per effective mutation: in a container reached from `New`,
`Set(k, v)` returns and increases `Len()` by exactly 1 when `k` was absent (`Get(k)` reported
`false`), and leaves `Len()` unchanged when `k` was present (`Get(k)` reported `true`);
`Delete(k)` returns and decreases `Len()` by exactly 1 when `k` was present, and leaves it
unchanged when `k` was absent. -/
theorem C19_len_step [Inhabited V] (render : K → List (Fin 256)) (sm : ShardingMap K V)
    (k : K) (hr : Reachable render sm) :
    (∀ v0 v : V, Get sm k = .ok (v0, false) →
        ∃ sm', Set sm k v = .ok sm' ∧ Len sm' = Len sm + 1)
    ∧ (∀ v0 v : V, Get sm k = .ok (v0, true) →
        ∃ sm', Set sm k v = .ok sm' ∧ Len sm' = Len sm)
    ∧ (∀ v0 : V, Get sm k = .ok (v0, true) →
        ∃ sm', Delete sm k = .ok sm' ∧ Len sm' = Len sm - 1)
    ∧ (∀ v0 : V, Get sm k = .ok (v0, false) →
        ∃ sm', Delete sm k = .ok sm' ∧ Len sm' = Len sm) := by
  refine ⟨?_, ?_, ?_, ?_⟩
  · intro v0 v h
    simpa using (len_step render sm k v0 false hr h).1 v
  · intro v0 v h
    simpa using (len_step render sm k v0 true hr h).1 v
  · intro v0 h
    simpa using (len_step render sm k v0 true hr h).2
  · intro v0 h
    simpa using (len_step render sm k v0 false hr h).2

/-- C19 witness: in the sample container (three keys) key 5 is present and key 9 is absent. -/
theorem C19_len_step_witness :
    (∃ sm', Set sampleMap 9 1 = .ok sm' ∧ Len sm' = Len sampleMap + 1)
    ∧ (∃ sm', Set sampleMap 5 1 = .ok sm' ∧ Len sm' = Len sampleMap)
    ∧ (∃ sm', Delete sampleMap 5 = .ok sm' ∧ Len sm' = Len sampleMap - 1)
    ∧ (∃ sm', Delete sampleMap 9 = .ok sm' ∧ Len sm' = Len sampleMap) :=
  ⟨(C19_len_step (fun _ => []) sampleMap 9 sampleMap_reachable).1 0 1 rfl,
   (C19_len_step (fun _ => []) sampleMap 5 sampleMap_reachable).2.1 50 1 rfl,
   (C19_len_step (fun _ => []) sampleMap 5 sampleMap_reachable).2.2.1 50 rfl,
   (C19_len_step (fun _ => []) sampleMap 9 sampleMap_reachable).2.2.2 0 rfl⟩

end Claims

end Shardingmap
